import Mathlib

/-!
# Verification of the galendar special-day resolver and calendar grid

This file gives a shallow embedding, in Lean 4, of the core of the
`unkiwii/galendar` repository: the date-key resolver, the embedded
expression evaluator, the special-day loader loop, and the month-grid
builder (`NewCalendar`), together with proofs about them.

Dates are modelled in the proleptic Gregorian calendar over `Nat` years
(year 1 and later), mirroring Go's `time` package: the weekday of a date
is obtained from a linear absolute day count anchored so that
0001-01-01 is a Monday, exactly as in Go, with weekday numbering
Sunday = 0 .. Saturday = 6.
-/

set_option linter.constructorNameAsVariable false

namespace Galendar

/-- Leap year test of the proleptic Gregorian calendar, as in Go's
`isLeap`: divisible by 4, and not by 100 unless by 400. -/
def isLeap (y : Nat) : Bool :=
  y % 4 == 0 && (y % 100 != 0 || y % 400 == 0)

/-- Number of days of month `m` (1-12) of year `y`, as in Go's `daysIn`. -/
def daysInMonth (y m : Nat) : Nat :=
  match m with
  | 2 => if isLeap y then 29 else 28
  | 4 => 30
  | 6 => 30
  | 9 => 30
  | 11 => 30
  | _ => 31

/-- Days of year `y` strictly before month `m`:
`daysBeforeMonth y 1 = 0` and each further month adds its length. -/
def daysBeforeMonth (y : Nat) : Nat → Nat
  | 0 => 0
  | 1 => 0
  | m + 2 => daysBeforeMonth y (m + 1) + daysInMonth y (m + 1)

/-- Days strictly before January 1 of year `y`, counting from
0001-01-01 (which therefore has absolute day number 1 below): the
Gregorian count `365*n + n/4 - n/100 + n/400` for `n = y - 1`, with the
two division terms grouped so the `Nat` subtraction is obviously exact
(`n/4 ≥ n/100`). -/
def daysBeforeYear (y : Nat) : Nat :=
  365 * (y - 1) + ((y - 1) / 4 - (y - 1) / 100) + (y - 1) / 400

/-- A calendar date as Go's `time.Date(year, month, day, 0,0,0,0, UTC)`
midnight instant, restricted to positive years. -/
structure GoDate where
  year : Nat
  month : Nat
  day : Nat
  deriving Repr, DecidableEq

/-- Absolute (linear) day number of a date; Go stores instants as a
linear count, so instant comparison and weekday both factor through
this. 0001-01-01 has absolute day 1. The formula is linear in `day`,
which also matches Go's `time.Date` normalization of out-of-range
day values. -/
def absDay : GoDate → Nat
  | ⟨y, m, d⟩ => daysBeforeYear y + daysBeforeMonth y m + d

/-- Weekday of a date with Go's numbering (Sunday = 0 .. Saturday = 6);
0001-01-01 is a Monday (= 1), as in Go. -/
def weekdayOf (t : GoDate) : Nat :=
  absDay t % 7

/-- Go's `t.After(u)` on midnight-UTC dates: comparison of the linear
instants. -/
def GoDate.after (t u : GoDate) : Bool :=
  absDay u < absDay t

/-- A date is valid when its fields denote a real calendar day of a
positive year. -/
def ValidDate : GoDate → Prop
  | ⟨y, m, d⟩ => 1 ≤ y ∧ 1 ≤ m ∧ m ≤ 12 ∧ 1 ≤ d ∧ d ≤ daysInMonth y m

instance : (t : GoDate) → Decidable (ValidDate t)
  | ⟨_, _, _⟩ => by simp only [ValidDate]; infer_instance

/-- `time.Date(y, m, d, ...)` normalization of the day field, valid for
`1 ≤ m ≤ 12` and `1 ≤ d` not exceeding the month length plus the next
month's length (all uses in this development have `d ≤ 31`). -/
def goTimeDate (y m d : Nat) : GoDate :=
  if d ≤ daysInMonth y m then ⟨y, m, d⟩
  else if m = 12 then ⟨y + 1, 1, d - daysInMonth y m⟩
  else ⟨y, m + 1, d - daysInMonth y m⟩

/-- `time.Date(y, m, d).Month()` for the same input range as
`goTimeDate`. -/
def goTimeDateMonth (y m d : Nat) : Nat :=
  (goTimeDate y m d).month

/-- The configuration values the core reads (`Config.Year` and
`Config.Month` in `config.go`). -/
structure Config where
  year : Nat
  month : Nat
  deriving Repr, DecidableEq

instance {ε α : Type} [DecidableEq ε] [DecidableEq α] :
    DecidableEq (Except ε α)
  | .error e, .error f => decidable_of_iff (e = f) (by simp)
  | .error _, .ok _ => .isFalse (by simp)
  | .ok _, .error _ => .isFalse (by simp)
  | .ok x, .ok y => decidable_of_iff (x = y) (by simp)

/-- Embedding of `calculateOrdinalWeekdayDate` (special-day resolver).
`ordinal` is `1`-`4` for "1st".."4th" or `-1` for "last", exactly the
values `parseOrdinalWeekday` can produce; `weekday` is Go's numbering
0-6. Both `% 7` computations act on operands that are non-negative in
Go (both weekday values are 0-6), so Go's truncated `%` agrees with
`Nat` `%` here. The weekday of `time.Date(cfg.Year, month, targetDay)`
is `weekdayOf ⟨cfg.year, month, targetDay⟩` because `absDay` is linear
in the day field, matching `time.Date`'s normalization; the
`testDate.Month() != month` check is `goTimeDateMonth`. -/
def calculateOrdinalWeekdayDate (cfg : Config) (month : Nat) (ordinal : Int)
    (weekday : Nat) : Except String Nat :=
  let firstWeekday := weekdayOf ⟨cfg.year, month, 1⟩
  let daysUntilFirst := (weekday + 7 - firstWeekday) % 7
  if ordinal = -1 then
    -- find the last occurrence, walking back from the last day of the month
    let lastDayNum := daysInMonth cfg.year month
    let lastWeekday := weekdayOf ⟨cfg.year, month, lastDayNum⟩
    let daysBack := (lastWeekday + 7 - weekday) % 7
    let lastOccurrence : Int := (lastDayNum : Int) - (daysBack : Int)
    if lastOccurrence < 1 then .error "no occurrence of weekday in month"
    else .ok lastOccurrence.toNat
  else
    -- Nth occurrence is at 1 + daysUntilFirst + (ordinal-1)*7
    let targetDay : Int := 1 + (daysUntilFirst : Int) + (ordinal - 1) * 7
    if targetDay > 31 then .error "ordinal weekday does not exist in month"
    else
      let td := targetDay.toNat
      if weekdayOf ⟨cfg.year, month, td⟩ ≠ weekday then
        .error "calculated date is not the requested weekday"
      else if goTimeDateMonth cfg.year month td ≠ month then
        .error "ordinal weekday does not exist in month"
      else .ok td

/-! ## The special-day store and the calendar grid -/

/-- `specialDaysKey`: a (month, day) pair identifying a special day. -/
structure SpecialDaysKey where
  month : Nat
  day : Nat
  deriving Repr, DecidableEq

/-- `SpecialDayNote` (text/font resolved, size passed through; the
`float64` size is uninterpreted by the core, modelled as `Int`). -/
structure SpecialDayNote where
  text : List Char
  font : List Char
  size : Int
  deriving Repr, DecidableEq

/-- A resolved `SpecialDay`. -/
structure SpecialDay where
  date : GoDate
  holiday : Bool
  icon : List Char
  note : SpecialDayNote
  deriving Repr, DecidableEq

/-- The `SpecialDays` map, modelled as an association list whose keys
are kept unique (mirroring a Go map). -/
abbrev SpecialDays := List (SpecialDaysKey × SpecialDay)

/-- Map lookup `days[key]`. -/
def findDay (days : SpecialDays) (k : SpecialDaysKey) : Option SpecialDay :=
  (days.find? (fun p => p.1 == k)).map (fun p => p.2)

/-- Map update `days[key] = v`: overwrite the entry if the key is
present, append otherwise. -/
def insertDay (days : SpecialDays) (k : SpecialDaysKey) (v : SpecialDay) :
    SpecialDays :=
  if days.any (fun p => p.1 == k) then
    days.map (fun p => if p.1 == k then (k, v) else p)
  else days ++ [(k, v)]

/-- `SpecialDays.At(date)`: look up the (month, day) key of a date
(the empty-map early return of the Go method is behaviorally the
same lookup). -/
def atDate (days : SpecialDays) (t : GoDate) : Option SpecialDay :=
  findDay days ⟨t.month, t.day⟩

/-- A `Day` cell of the calendar grid. -/
structure Day where
  date : GoDate
  dayNumber : Nat
  isCurrentMonth : Bool
  special : Option SpecialDay
  deriving Repr, DecidableEq

/-- `Day.IsHoliday` from `calendar.go`: Saturday and Sunday are always
holidays; otherwise the attached special day decides, defaulting to
false. -/
def Day.IsHoliday (d : Day) : Bool :=
  if weekdayOf d.date == 6 || weekdayOf d.date == 0 then true
  else
    match d.special with
    | some s => s.holiday
    | none => false

/-- `AddDate(0, 0, 1)` on a valid date. -/
def nextDay : GoDate → GoDate
  | ⟨y, m, d⟩ =>
    if d < daysInMonth y m then ⟨y, m, d + 1⟩
    else if m < 12 then ⟨y, m + 1, 1⟩
    else ⟨y + 1, 1, 1⟩

/-- `AddDate(0, 0, -1)` on a valid date after 0001-01-01. -/
def prevDay : GoDate → GoDate
  | ⟨y, m, d⟩ =>
    if 2 ≤ d then ⟨y, m, d - 1⟩
    else if 2 ≤ m then ⟨y, m - 1, daysInMonth y (m - 1)⟩
    else ⟨y - 1, 12, 31⟩

/-- `AddDate(0, 0, k)`. -/
def nthDay : Nat → GoDate → GoDate
  | 0, t => t
  | k + 1, t => nthDay k (nextDay t)

/-- `AddDate(0, 0, -k)`. -/
def subDays : Nat → GoDate → GoDate
  | 0, t => t
  | k + 1, t => subDays k (prevDay t)

/-- One `Day` cell as built in the body of the NewCalendar loop. -/
def mkDay (year month : Nat) (specialDays : SpecialDays) (t : GoDate) :
    Day where
  date := t
  dayNumber := t.day
  isCurrentMonth := t.month == month && t.year == year
  special := atDate specialDays t

/-- The inner `for day := range 7` loop of NewCalendar: append 7 day
cells starting at `cur`, returning the date just after the week. The
Go loop's early `break` fires only when `day == 6`, i.e. exactly when
the loop ends anyway, so it never changes the appended days. -/
def buildWeek (year month : Nat) (sd : SpecialDays) :
    Nat → GoDate → List Day × GoDate
  | 0, cur => ([], cur)
  | n + 1, cur =>
    let d := mkDay year month sd cur
    let rest := buildWeek year month sd n (nextDay cur)
    (d :: rest.1, rest.2)

/-- The outer `for range 6` loop of NewCalendar: append a full week,
then stop if the current date has passed the last day of the month
(`currentDate.After(lastDayOfMonth)`, i.e. `lastAbs < absDay next`,
since Go compares the linear instants). -/
def buildWeeks (year month : Nat) (sd : SpecialDays) (lastAbs : Nat) :
    Nat → GoDate → List (List Day)
  | 0, _ => []
  | n + 1, cur =>
    let wk := buildWeek year month sd 7 cur
    if lastAbs < absDay wk.2 then [wk.1]
    else wk.1 :: buildWeeks year month sd lastAbs n wk.2

/-- The `Calendar` value. -/
structure Calendar where
  year : Nat
  month : Nat
  weeks : List (List Day)
  weekStart : Nat
  specialDays : SpecialDays
  deriving Repr, DecidableEq

/-- Embedding of `NewCalendar` (`calendar.go`); `weekStart` uses Go's
weekday numbering 0-6. The `startOffset` operand
`firstWeekday - int(weekStart) + 7` is positive in Go for week-start
values 0-6, so Go's truncated `%` agrees with `Nat` `%` written with
the reordered, non-truncating `firstWeekday + 7 - weekStart`. -/
def NewCalendar (year month weekStart : Nat) (specialDays : SpecialDays) :
    Except String Calendar :=
  if month < 1 || month > 12 then .error "invalid month"
  else
    let firstDayOfMonth : GoDate := ⟨year, month, 1⟩
    let lastDayOfMonth : GoDate := ⟨year, month, daysInMonth year month⟩
    let firstWeekday := weekdayOf firstDayOfMonth
    let startOffset := (firstWeekday + 7 - weekStart) % 7
    let startDate := subDays startOffset firstDayOfMonth
    let weeks :=
      buildWeeks year month specialDays (absDay lastDayOfMonth) 6 startDate
    .ok ⟨year, month, weeks, weekStart, specialDays⟩

/-! ## Strings and the expression evaluator -/

/-- ASCII whitespace (the inputs of interest are ASCII; Go's
`unicode.IsSpace` extends this to Unicode spaces). -/
def isSpaceChar (c : Char) : Bool :=
  c == ' ' || c == '\t' || c == '\n' || c == '\r'

/-- `strings.TrimSpace`. -/
def trimSpace (s : List Char) : List Char :=
  ((s.dropWhile isSpaceChar).reverse.dropWhile isSpaceChar).reverse

def isDigitChar (c : Char) : Bool :=
  '0' ≤ c && c ≤ '9'

def digitVal (c : Char) : Nat :=
  c.toNat - '0'.toNat

def natDigitsAux : List Char → Nat → Option Nat
  | [], acc => some acc
  | c :: rest, acc =>
    if isDigitChar c then natDigitsAux rest (acc * 10 + digitVal c)
    else none

/-- Parse a nonempty all-digits string. -/
def natDigits? : List Char → Option Nat
  | [] => none
  | l => natDigitsAux l 0

/-- `strconv.Atoi`: optional sign then digits, consuming the whole
string (int64 overflow is ignored; the values in this domain are
small). -/
def atoi? : List Char → Option Int
  | [] => none
  | '+' :: rest => (natDigits? rest).map (fun n => (n : Int))
  | '-' :: rest => (natDigits? rest).map (fun n => -(n : Int))
  | l => (natDigits? l).map (fun n => (n : Int))

/-- ASCII lowering (`strings.ToLower` restricted to ASCII, which covers
the identifiers of the expression language). -/
def toLowerChar (c : Char) : Char :=
  if 'A' ≤ c && c ≤ 'Z' then Char.ofNat (c.toNat + 32) else c

def toLowerStr (s : List Char) : List Char :=
  s.map toLowerChar

/-- `strconv.Itoa`. -/
def itoa (v : Int) : List Char :=
  if v < 0 then '-' :: Nat.toDigits 10 v.natAbs
  else Nat.toDigits 10 v.toNat

/-- `resolveValue`: trim, try a number, then a sign prefix (recursing
on the rest), then the case-insensitive identifiers
`cfg.year`, `cfg.month`, `year`, `month`, `day`. The recursion of the
Go function is on a strictly shorter string, made structural here by
a fuel argument always called with `fuel ≥ token length` (see
`resolveValueTop`), so the fuel-exhausted branch is unreachable. -/
def resolveValue (cfg : Config) (date : GoDate) :
    Nat → List Char → Except String Int
  | fuel, token =>
    match trimSpace token with
    | [] => .error "empty token"
    | c :: rest =>
      match atoi? (c :: rest) with
      | some n => .ok n
      | none =>
        if c = '-' then
          match fuel with
          | 0 => .error "fuel exhausted"
          | fuel' + 1 =>
            match resolveValue cfg date fuel' rest with
            | .ok v => .ok (-v)
            | .error e => .error e
        else if c = '+' then
          match fuel with
          | 0 => .error "fuel exhausted"
          | fuel' + 1 => resolveValue cfg date fuel' rest
        else
          match toLowerStr (c :: rest) with
          | 'c' :: 'f' :: 'g' :: '.' :: prop =>
            if prop = ['y', 'e', 'a', 'r'] then .ok (cfg.year : Int)
            else if prop = ['m', 'o', 'n', 't', 'h'] then .ok (cfg.month : Int)
            else .error "unknown config property"
          | tl =>
            if tl = ['y', 'e', 'a', 'r'] then .ok (date.year : Int)
            else if tl = ['m', 'o', 'n', 't', 'h'] then .ok (date.month : Int)
            else if tl = ['d', 'a', 'y'] then .ok (date.day : Int)
            else .error "unknown variable"

def resolveValueTop (cfg : Config) (date : GoDate)
    (token : List Char) : Except String Int :=
  resolveValue cfg date token.length token

/-- Append the trimmed current token if nonempty (the flush step of
`tokenizeExpression`). -/
def flushToken (tokens : List (List Char)) (current : List Char) :
    List (List Char) :=
  if current.isEmpty then tokens else tokens ++ [trimSpace current]

/-- The character loop of `tokenizeExpression`: on `+`/`-` flush the
current token, then either start a unary-minus token (at the start or
after an operator) or emit an operator token; spaces are skipped when
the current token is empty and kept inside it otherwise; any other
character extends the current token. -/
def tokenizeGo : List Char → List (List Char) → List Char →
    List (List Char)
  | [], tokens, current => flushToken tokens current
  | c :: rest, tokens, current =>
    if c = '+' ∨ c = '-' then
      let tokens' := flushToken tokens current
      if c = '-' ∧ (tokens' = [] ∨ tokens'.getLast? = some ['+'] ∨
          tokens'.getLast? = some ['-']) then
        tokenizeGo rest tokens' ['-']
      else
        tokenizeGo rest (tokens' ++ [[c]]) []
    else if c = ' ' then
      if current.isEmpty then tokenizeGo rest tokens current
      else tokenizeGo rest tokens (current ++ [c])
    else tokenizeGo rest tokens (current ++ [c])

def tokenizeExpression (expr : List Char) : List (List Char) :=
  tokenizeGo (trimSpace expr) [] []

/-- The accumulation loop of `evaluateArithmetic` (Go resolves the
operand before inspecting the operator, and rejects anything but
`+`/`-`). -/
def evalOps (cfg : Config) (date : GoDate) :
    Int → List (List Char) → Except String Int
  | acc, [] => .ok acc
  | _, [_] => .error "incomplete expression: missing operand"
  | acc, op :: operand :: rest =>
    match resolveValueTop cfg date operand with
    | .error e => .error e
    | .ok v =>
      if op = ['+'] then evalOps cfg date (acc + v) rest
      else if op = ['-'] then evalOps cfg date (acc - v) rest
      else .error "unsupported operator"

/-- `evaluateArithmetic`: trim, tokenize, resolve the first token, then
fold the operator/operand pairs left to right. -/
def evaluateArithmetic (cfg : Config) (date : GoDate) (expr : List Char) :
    Except String Int :=
  match trimSpace expr with
  | [] => .error "empty expression"
  | e =>
    match tokenizeExpression e with
    | [] => .error "no tokens in expression"
    | t0 :: rest =>
      match resolveValueTop cfg date t0 with
      | .error e => .error e
      | .ok v0 => evalOps cfg date v0 rest

/-- One match attempt of the regex `\(\(([^)]+)\)\)` at the current
position: `((`, then a maximal nonempty run of non-`)` characters,
then `))`. The greedy `[^)]+` cannot backtrack over a non-`)`
character, so a match at this position has exactly this shape.
Returns the inner expression and the remainder after the match. -/
def tryMatch : List Char → Option (List Char × List Char)
  | '(' :: '(' :: rest =>
    let inner := rest.takeWhile (fun c => c ≠ ')')
    if inner.isEmpty then none
    else
      match rest.dropWhile (fun c => c ≠ ')') with
      | ')' :: ')' :: rem => some (inner, rem)
      | _ => none
  | _ => none

/-- The scan of `evaluateExpressionsWithSkip`: find the leftmost,
non-overlapping matches of the marker regex; evaluate each inner
expression (the first error aborts, in match order, as in Go's
collection loop); substitute the decimal value of each match (Go
substitutes in a second pass from a table of the same pure values);
and accumulate the skip flag (some value ≤ 0). `fuel ≥ length` makes
the scan structural; the fuel-exhausted branch is unreachable from
`evaluateExpressionsWithSkip`. -/
def scanExprs (cfg : Config) (date : GoDate) :
    Nat → List Char → Except String (List Char × Bool)
  | 0, cs => .ok (cs, false)
  | fuel + 1, cs =>
    match cs with
    | [] => .ok ([], false)
    | c :: rest =>
      match tryMatch cs with
      | some (inner, rem) =>
        match evaluateArithmetic cfg date inner with
        | .error e => .error ("expression evaluation error: " ++ e)
        | .ok v =>
          match scanExprs cfg date fuel rem with
          | .error e => .error e
          | .ok (tailRes, tailSkip) =>
            .ok (itoa v ++ tailRes, tailSkip || decide (v ≤ 0))
      | none =>
        match scanExprs cfg date fuel rest with
        | .error e => .error e
        | .ok (tailRes, tailSkip) => .ok (c :: tailRes, tailSkip)

/-- `evaluateExpressionsWithSkip`. -/
def evaluateExpressionsWithSkip (cfg : Config) (date : GoDate)
    (text : List Char) : Except String (List Char × Bool) :=
  if text.isEmpty then .ok (text, false)
  else scanExprs cfg date text.length text

/-! ## The date-key resolver -/

/-- `strings.CutPrefix`. -/
def cutPfx : List Char → List Char → Option (List Char)
  | [], s => some s
  | _, [] => none
  | a :: ps, b :: ss => if a = b then cutPfx ps ss else none

/-- Modelled from the spec: `ParseWeekday` is called by
`parseOrdinalWeekday` but its definition is not among the sources;
per the spec a weekday is a full or standard three-letter name,
case-insensitive, with Go numbering (Sunday = 0). -/
def ParseWeekday (s : List Char) : Except String Nat :=
  let t := toLowerStr (trimSpace s)
  if t = ['s', 'u', 'n', 'd', 'a', 'y'] ∨ t = ['s', 'u', 'n'] then .ok 0
  else if t = ['m', 'o', 'n', 'd', 'a', 'y'] ∨ t = ['m', 'o', 'n'] then .ok 1
  else if t = ['t', 'u', 'e', 's', 'd', 'a', 'y'] ∨ t = ['t', 'u', 'e'] then
    .ok 2
  else if t = ['w', 'e', 'd', 'n', 'e', 's', 'd', 'a', 'y'] ∨
      t = ['w', 'e', 'd'] then .ok 3
  else if t = ['t', 'h', 'u', 'r', 's', 'd', 'a', 'y'] ∨
      t = ['t', 'h', 'u'] then .ok 4
  else if t = ['f', 'r', 'i', 'd', 'a', 'y'] ∨ t = ['f', 'r', 'i'] then .ok 5
  else if t = ['s', 'a', 't', 'u', 'r', 'd', 'a', 'y'] ∨
      t = ['s', 'a', 't'] then .ok 6
  else .error "invalid weekday"

/-- The ordinal prefixes of `parseOrdinalWeekday` (`ordinalMap` plus
the trailing space of `ordinalStr + " "`). Go iterates its map in
unspecified order, but no string has two of these as prefixes, so an
ordered scan is equivalent. -/
def ordinalPrefixes : List (List Char × Int) :=
  [(['1', 's', 't', ' '], 1), (['2', 'n', 'd', ' '], 2),
   (['3', 'r', 'd', ' '], 3), (['4', 't', 'h', ' '], 4),
   (['f', 'i', 'r', 's', 't', ' '], 1),
   (['s', 'e', 'c', 'o', 'n', 'd', ' '], 2),
   (['t', 'h', 'i', 'r', 'd', ' '], 3),
   (['f', 'o', 'u', 'r', 't', 'h', ' '], 4)]

/-- `parseOrdinalWeekday`: "last <weekday>" gives ordinal -1, else one
of the ordinal prefixes followed by a weekday. -/
def parseOrdinalWeekday (s : List Char) : Except String (Int × Nat) :=
  let t := toLowerStr (trimSpace s)
  match cutPfx ['l', 'a', 's', 't', ' '] t with
  | some rest =>
    match ParseWeekday rest with
    | .error e => .error e
    | .ok wd => .ok (-1, wd)
  | none =>
    match (ordinalPrefixes.filterMap
        (fun p => (cutPfx p.1 t).map (fun rest => (p.2, rest)))).head? with
    | some (ord, rest) =>
      match ParseWeekday rest with
      | .error e => .error e
      | .ok wd => .ok (ord, wd)
    | none => .error "invalid ordinal format"

/-- `parseRelativeDate`: the anchored regex `^\(\((.+)\)\)/(\d+)$`.
Because `(\d+)$` is anchored and `/` is not a digit, the digit group
is exactly the maximal digit run at the end of the string, which must
be nonempty and preceded by `))/`; the greedy `(.+)` is then
everything between the leading `((` and that `))/` (nonempty, and `.`
does not match a newline). Then: month range check 1-12, ordinal and
weekday parse, and the ordinal-weekday calculation. -/
def parseRelativeDate (s : List Char) (cfg : Config) :
    Except String SpecialDaysKey :=
  let rev := s.reverse
  let dsRev := rev.takeWhile isDigitChar
  let rem := rev.dropWhile isDigitChar
  if dsRev.isEmpty then .error "not a relative date pattern"
  else
    match rem with
    | '/' :: ')' :: ')' :: innerRev =>
      match innerRev.reverse with
      | '(' :: '(' :: inner =>
        if inner.isEmpty ∨ inner.contains '\n' then
          .error "not a relative date pattern"
        else
          let month := (natDigits? dsRev.reverse).getD 0
          if month < 1 ∨ month > 12 then .error "month out of range"
          else
            match parseOrdinalWeekday (trimSpace inner) with
            | .error e => .error ("invalid ordinal or weekday: " ++ e)
            | .ok (ordinal, weekday) =>
              match calculateOrdinalWeekdayDate cfg month ordinal weekday with
              | .error e => .error ("failed to calculate date: " ++ e)
              | .ok day => .ok ⟨month, day⟩
      | _ => .error "not a relative date pattern"
    | _ => .error "not a relative date pattern"

/-- Parsed calendar fields of Go `time.Parse` (clock fields are
irrelevant here). -/
structure GoParsedDate where
  year : Nat
  month : Nat
  day : Nat
  deriving Repr, DecidableEq

/-- `getnum` of the time package: one digit, or two when the second
character is a digit; `fixed` requires exactly two. -/
def getnum2 (fixed : Bool) (s : List Char) : Option (Nat × List Char) :=
  match s with
  | c1 :: rest =>
    if isDigitChar c1 then
      match rest with
      | c2 :: rest2 =>
        if isDigitChar c2 then some (10 * digitVal c1 + digitVal c2, rest2)
        else if fixed then none
        else some (digitVal c1, rest)
      | [] => if fixed then none else some (digitVal c1, [])
    else none
  | [] => none

/-- Four fixed digits (the `2006` year chunk). -/
def getnum4 (s : List Char) : Option (Nat × List Char) :=
  match s with
  | a :: b :: c :: d :: rest =>
    if isDigitChar a ∧ isDigitChar b ∧ isDigitChar c ∧ isDigitChar d then
      some (1000 * digitVal a + 100 * digitVal b + 10 * digitVal c +
        digitVal d, rest)
    else none
  | _ => none

/-- Restricted embedding of Go `time.Parse`, sufficient for the
layouts this repository uses: the chunks `2006` (4-digit year),
`01`/`02` (2-digit month/day), `1`/`2` (1-2-digit month/day), and any
other character as a literal that must match the input; trailing
input is an error. Fields absent from the layout keep Go's defaults
(year 0, January 1); Go's validation of the month range and of the
day against the month length (of the parsed year) is performed at the
end. -/
def goTimeParseAux : List Char → List Char → Nat → Nat → Nat →
    Except String GoParsedDate
  | [], s, y, mo, d =>
    if s.isEmpty then
      if mo < 1 ∨ 12 < mo then .error "month out of range"
      else if d < 1 ∨ daysInMonth y mo < d then .error "day out of range"
      else .ok ⟨y, mo, d⟩
    else .error "extra text"
  | '2' :: '0' :: '0' :: '6' :: restL, s, _, mo, d =>
    match getnum4 s with
    | some (v, s') => goTimeParseAux restL s' v mo d
    | none => .error "cannot parse year"
  | '0' :: '1' :: restL, s, y, _, d =>
    match getnum2 true s with
    | some (v, s') => goTimeParseAux restL s' y v d
    | none => .error "cannot parse month"
  | '0' :: '2' :: restL, s, y, mo, _ =>
    match getnum2 true s with
    | some (v, s') => goTimeParseAux restL s' y mo v
    | none => .error "cannot parse day"
  | '1' :: restL, s, y, _, d =>
    match getnum2 false s with
    | some (v, s') => goTimeParseAux restL s' y v d
    | none => .error "cannot parse month"
  | '2' :: restL, s, y, mo, _ =>
    match getnum2 false s with
    | some (v, s') => goTimeParseAux restL s' y mo v
    | none => .error "cannot parse day"
  | c :: restL, s, y, mo, d =>
    match s with
    | c' :: s' =>
      if c = c' then goTimeParseAux restL s' y mo d
      else .error "literal mismatch"
    | [] => .error "input exhausted"

def goTimeParse (layout s : List Char) : Except String GoParsedDate :=
  goTimeParseAux layout s 0 1 1

/-- `specialDaysKeyFromString`: try the relative pattern first, fall
back to parsing a fixed date against the layout, keeping only month
and day of the parsed time (`specialDaysKeyFromTime`). -/
def specialDaysKeyFromString (layout s : List Char) (cfg : Config) :
    Except String SpecialDaysKey :=
  match parseRelativeDate s cfg with
  | .ok key => .ok key
  | .error _ =>
    match goTimeParse layout s with
    | .ok t => .ok ⟨t.month, t.day⟩
    | .error e => .error ("cannot parse as layout or relative date: " ++ e)

/-! ## The special-day loader loop -/

/-- One source record of the TOML file (`specialDaysTomlFile.Day`);
`size` is passed through unevaluated (`float64` in Go, opaque
here). -/
structure DayRecord where
  when : List Char
  holiday : Bool
  icon : List Char
  text : List Char
  font : List Char
  size : Int
  deriving Repr, DecidableEq

/-- The body of the `LoadSpecialDaysFromFile` loop for one record:
resolve the key, build the record's date with the calendar year
(`time.Date(cfg.Year, key.month, key.day, ...)`), then evaluate text,
icon and font in that order; a field whose skip flag is set makes the
loop `continue` (here: `.ok none`) without evaluating the remaining
fields; an evaluation error aborts. `.ok (some (key, v))` is the
entry stored for the record. -/
def resolveRecord (fmt : List Char) (r : DayRecord) (cfg : Config) :
    Except String (Option (SpecialDaysKey × SpecialDay)) :=
  match specialDaysKeyFromString fmt r.when cfg with
  | .error e => .error ("invalid when value: " ++ e)
  | .ok key =>
    let date := goTimeDate cfg.year key.month key.day
    match evaluateExpressionsWithSkip cfg date r.text with
    | .error e => .error ("error evaluating text: " ++ e)
    | .ok (text, skip1) =>
      if skip1 then .ok none
      else
        match evaluateExpressionsWithSkip cfg date r.icon with
        | .error e => .error ("error evaluating icon: " ++ e)
        | .ok (icon, skip2) =>
          if skip2 then .ok none
          else
            match evaluateExpressionsWithSkip cfg date r.font with
            | .error e => .error ("error evaluating font: " ++ e)
            | .ok (font, skip3) =>
              if skip3 then .ok none
              else
                .ok (some (key,
                  ⟨date, r.holiday, icon, ⟨text, font, r.size⟩⟩))

/-- The `LoadSpecialDaysFromFile` loop over the decoded records (TOML
file decoding is the external collaborator; `days := SpecialDays{}`
starts empty, `days[key] = specialDay` is `insertDay`). -/
def loadDays (fmt : List Char) (cfg : Config) :
    List DayRecord → SpecialDays → Except String SpecialDays
  | [], acc => .ok acc
  | r :: rest, acc =>
    match resolveRecord fmt r cfg with
    | .error e => .error e
    | .ok none => loadDays fmt cfg rest acc
    | .ok (some (key, v)) => loadDays fmt cfg rest (insertDay acc key v)

/-- The sequence of values stored under key `k` by a record list, in
processing order (specification device for last-write-wins). -/
def storesOf (fmt : List Char) (cfg : Config) (recs : List DayRecord)
    (k : SpecialDaysKey) : List SpecialDay :=
  recs.filterMap (fun r =>
    match resolveRecord fmt r cfg with
    | .ok (some (k', v)) => if k' = k then some v else none
    | _ => none)

/-! ## Decompositions used to state evaluator properties -/

/-- Build a text from an initial marker-free segment followed by
`((expr))` markers each followed by a marker-free segment; the `Int`
component carries the value the expression is asserted to evaluate
to. -/
def glueMarkers : List Char → List (List Char × Int × List Char) →
    List Char
  | seg, [] => seg
  | seg, (e, _, seg') :: ps =>
    seg ++ '(' :: '(' :: (e ++ ')' :: ')' :: glueMarkers seg' ps)

/-- The same text after substituting each marker with the decimal
string of its value. -/
def substMarkers : List Char → List (List Char × Int × List Char) →
    List Char
  | seg, [] => seg
  | seg, (_, v, seg') :: ps => seg ++ itoa v ++ substMarkers seg' ps

/-- Build an arithmetic expression from an operand followed by
operator/operand pairs; the `Int` components carry asserted operand
values. -/
def glueOps : List Char → List (Char × Int × List Char) → List Char
  | t0, [] => t0
  | t0, (op, _, t) :: ops => t0 ++ op :: glueOps t ops

/-- Left-to-right fold of the operator/value pairs. -/
def foldOps : Int → List (Char × Int × List Char) → Int
  | acc, [] => acc
  | acc, (op, v, _) :: ops =>
    foldOps (if op = '+' then acc + v else acc - v) ops

/-- The token list an operand/operator decomposition tokenizes to. -/
def flatOps : List (Char × Int × List Char) → List (List Char)
  | [] => []
  | (op, _, t) :: ops => [op] :: t :: flatOps ops

/-- A well-formed operand token: nonempty, no operator characters, no
whitespace. -/
def CleanTok (t : List Char) : Prop :=
  t ≠ [] ∧ ∀ c ∈ t, c ≠ '+' ∧ c ≠ '-' ∧ isSpaceChar c = false

/-! ## Basic facts about the date model -/

theorem daysInMonth_ge (y m : Nat) (h1 : 1 ≤ m) (h12 : m ≤ 12) :
    28 ≤ daysInMonth y m := by
  unfold daysInMonth
  split <;> first | omega | (split <;> omega)

theorem daysInMonth_le (y m : Nat) : daysInMonth y m ≤ 31 := by
  unfold daysInMonth
  split <;> first | omega | (split <;> omega)

theorem daysBeforeMonth_succ (y m : Nat) (h : 1 ≤ m) :
    daysBeforeMonth y (m + 1) = daysBeforeMonth y m + daysInMonth y m := by
  match m, h with
  | m + 1, _ => rfl

/-- Total number of days of year `y` (sum over the 12 months). -/
theorem daysBeforeMonth_13 (y : Nat) :
    daysBeforeMonth y 13 = if isLeap y then 366 else 365 := by
  simp only [daysBeforeMonth, daysInMonth]
  cases h : isLeap y <;> simp [h]

theorem daysBeforeYear_succ (y : Nat) (h : 1 ≤ y) :
    daysBeforeYear (y + 1) =
      daysBeforeYear y + (if isLeap y then 366 else 365) := by
  simp only [daysBeforeYear, isLeap, Bool.and_eq_true, Bool.or_eq_true,
    beq_iff_eq, bne_iff_ne, ne_eq, decide_eq_true_eq]
  by_cases e4 : y % 4 = 0 <;> by_cases e100 : y % 100 = 0 <;>
    by_cases e400 : y % 400 = 0 <;>
    simp only [e4, e100, e400, if_true, if_false] <;>
    first | omega | skip
  all_goals simp_all
  all_goals omega

theorem daysBeforeYear_lb (y : Nat) (h : 2 ≤ y) : 365 ≤ daysBeforeYear y := by
  unfold daysBeforeYear
  omega

/-- Abbreviated form used everywhere: the absolute day of day `d` of a
month is the absolute day of day 1 plus `d - 1`. -/
theorem absDay_day (y m d : Nat) :
    absDay ⟨y, m, d⟩ = daysBeforeYear y + daysBeforeMonth y m + d := rfl

theorem weekdayOf_eq (y m d : Nat) :
    weekdayOf ⟨y, m, d⟩ =
      (daysBeforeYear y + daysBeforeMonth y m + d) % 7 := rfl

/-! ## C2: the ordinal-occurrence resolver -/

/-- **C2.** For every ordinal `N` in 1-4, target weekday, month 1-12 and
configured year, `calculateOrdinalWeekdayDate` returns
`1 + ((targetWeekday - firstWeekday + 7) mod 7) + (N-1)*7` (with
`firstWeekday` the weekday of day 1 of the month) whenever that value
does not exceed the month's last day, and fails otherwise (the failure
arm is vacuous for `N ≤ 4`, since the value is at most 28); and
`((3rd sunday))/10` with configured year 2024 resolves to day 20. -/
theorem ordinal_weekday_resolution (cfg : Config) (month wdy N : Nat)
    (hm1 : 1 ≤ month) (hm2 : month ≤ 12)
    (hw : wdy ≤ 6) (hN1 : 1 ≤ N) (hN2 : N ≤ 4) :
    (1 + (wdy + 7 - weekdayOf ⟨cfg.year, month, 1⟩) % 7 + (N - 1) * 7 ≤
        daysInMonth cfg.year month →
      calculateOrdinalWeekdayDate cfg month (N : Int) wdy =
        .ok (1 + (wdy + 7 - weekdayOf ⟨cfg.year, month, 1⟩) % 7 +
              (N - 1) * 7)) ∧
    (daysInMonth cfg.year month <
        1 + (wdy + 7 - weekdayOf ⟨cfg.year, month, 1⟩) % 7 + (N - 1) * 7 →
      ∃ e, calculateOrdinalWeekdayDate cfg month (N : Int) wdy = .error e) ∧
    calculateOrdinalWeekdayDate ⟨2024, 10⟩ 10 3 0 = .ok 20 := by
  have hdim : 28 ≤ daysInMonth cfg.year month :=
    daysInMonth_ge _ _ hm1 hm2
  have hfwB : weekdayOf ⟨cfg.year, month, 1⟩ =
      (daysBeforeYear cfg.year + daysBeforeMonth cfg.year month + 1) % 7 :=
    rfl
  have hduf : (wdy + 7 - weekdayOf ⟨cfg.year, month, 1⟩) % 7 < 7 := by
    omega
  refine ⟨?_, ?_, by decide⟩
  · intro hle
    have htd : ((1 : Int) +
        (((wdy + 7 - weekdayOf ⟨cfg.year, month, 1⟩) % 7 : Nat) : Int) +
        ((N : Int) - 1) * 7).toNat =
        1 + (wdy + 7 - weekdayOf ⟨cfg.year, month, 1⟩) % 7 + (N - 1) * 7 := by
      omega
    simp only [calculateOrdinalWeekdayDate]
    rw [if_neg (by omega : ¬((N : Int) = -1))]
    split
    · rename_i h
      exfalso
      omega
    · split
      · rename_i h
        exfalso
        rw [htd, weekdayOf_eq] at h
        omega
      · split
        · rename_i h
          exfalso
          rw [htd] at h
          simp only [goTimeDateMonth, goTimeDate] at h
          rw [if_pos hle] at h
          exact h rfl
        · rw [htd]
  · intro hlt
    exfalso
    omega

/-! ## C7: the last-occurrence resolver -/

/-- **C7.** Resolving `last <weekday>` always succeeds and yields the
unique day within the final 7 days of the month whose weekday is the
target; `((last monday))/3` with configured year 2024 resolves to 25. -/
theorem last_weekday_resolution (cfg : Config) (month wdy : Nat)
    (hm1 : 1 ≤ month) (hm2 : month ≤ 12)
    (hw : wdy ≤ 6) :
    (∃ d, calculateOrdinalWeekdayDate cfg month (-1) wdy = .ok d ∧
      daysInMonth cfg.year month ≤ d + 6 ∧ d ≤ daysInMonth cfg.year month ∧
      weekdayOf ⟨cfg.year, month, d⟩ = wdy ∧
      (∀ d2, daysInMonth cfg.year month ≤ d2 + 6 →
        d2 ≤ daysInMonth cfg.year month →
        weekdayOf ⟨cfg.year, month, d2⟩ = wdy → d2 = d)) ∧
    calculateOrdinalWeekdayDate ⟨2024, 3⟩ 3 (-1) 1 = .ok 25 := by
  have hdim : 28 ≤ daysInMonth cfg.year month :=
    daysInMonth_ge _ _ hm1 hm2
  have hlw : weekdayOf ⟨cfg.year, month, daysInMonth cfg.year month⟩ =
      (daysBeforeYear cfg.year + daysBeforeMonth cfg.year month +
        daysInMonth cfg.year month) % 7 := rfl
  have hdb : (weekdayOf ⟨cfg.year, month, daysInMonth cfg.year month⟩ +
      7 - wdy) % 7 < 7 := by omega
  refine ⟨⟨daysInMonth cfg.year month -
      (weekdayOf ⟨cfg.year, month, daysInMonth cfg.year month⟩ + 7 - wdy) % 7,
      ?_, by omega, by omega, ?_, ?_⟩, by decide⟩
  · simp only [calculateOrdinalWeekdayDate]
    split
    · split
      · rename_i h
        exfalso
        omega
      · congr 1
        omega
    · rename_i h
      exact absurd trivial h
  · rw [weekdayOf_eq]
    omega
  · intro d2 h1 h2 h3
    rw [weekdayOf_eq] at h3
    omega

/-! ## Stepping through dates -/

theorem nextDay_spec (t : GoDate) (hv : ValidDate t) :
    ValidDate (nextDay t) ∧ absDay (nextDay t) = absDay t + 1 := by
  obtain ⟨y, m, d⟩ := t
  obtain ⟨hy, hm1, hm2, hd1, hd2⟩ := hv
  simp only [nextDay]
  split
  · rename_i h
    simp only [ValidDate, absDay]
    exact ⟨⟨hy, hm1, hm2, by omega, by omega⟩, by omega⟩
  · split
    · rename_i h h12
      have hge := daysInMonth_ge y (m + 1) (by omega) (by omega)
      simp only [ValidDate, absDay]
      refine ⟨⟨hy, by omega, by omega, by omega, by omega⟩, ?_⟩
      rw [daysBeforeMonth_succ y m hm1]
      omega
    · rename_i h h12
      have hm : m = 12 := by omega
      subst hm
      have h31 : daysInMonth (y + 1) 1 = 31 := rfl
      simp only [ValidDate, absDay]
      refine ⟨⟨by omega, by omega, by omega, by omega, by omega⟩, ?_⟩
      have h0 : daysBeforeMonth (y + 1) 1 = 0 := rfl
      have h1 := daysBeforeYear_succ y hy
      have h2 := daysBeforeMonth_13 y
      have h3 : daysBeforeMonth y 13 =
          daysBeforeMonth y 12 + daysInMonth y 12 :=
        daysBeforeMonth_succ y 12 (by omega)
      cases hL : isLeap y <;> rw [hL] at h1 h2 <;> simp at h1 h2 <;> omega

theorem prevDay_spec (t : GoDate) (hv : ValidDate t)
    (h2 : 2 ≤ t.year ∨ 2 ≤ t.month ∨ 2 ≤ t.day) :
    ValidDate (prevDay t) ∧ absDay (prevDay t) + 1 = absDay t ∧
      nextDay (prevDay t) = t := by
  obtain ⟨y, m, d⟩ := t
  obtain ⟨hy, hm1, hm2, hd1, hd2⟩ := hv
  simp only at h2
  simp only [prevDay]
  split
  · rename_i h
    simp only [ValidDate, absDay, nextDay]
    refine ⟨⟨hy, hm1, hm2, by omega, by omega⟩, by omega, ?_⟩
    rw [if_pos (by omega)]
    congr 1
    omega
  · split
    · rename_i h hmge
      have hd : d = 1 := by omega
      subst hd
      have hge := daysInMonth_ge y (m - 1) (by omega) (by omega)
      have hs := daysBeforeMonth_succ y (m - 1) (by omega)
      have hmm : m - 1 + 1 = m := by omega
      rw [hmm] at hs
      simp only [ValidDate, absDay, nextDay]
      refine ⟨⟨hy, by omega, by omega, by omega, by omega⟩, by omega, ?_⟩
      rw [if_neg (by omega)]
      rw [if_pos (by omega)]
      congr 1
    · rename_i h hmlt
      have hm : m = 1 := by omega
      have hd : d = 1 := by omega
      have hy2 : 2 ≤ y := by omega
      subst hm; subst hd
      have h31 : daysInMonth (y - 1) 12 = 31 := rfl
      have h1 := daysBeforeYear_succ (y - 1) (by omega)
      have hyy : y - 1 + 1 = y := by omega
      rw [hyy] at h1
      have h2' := daysBeforeMonth_13 (y - 1)
      have h3 : daysBeforeMonth (y - 1) 13 =
          daysBeforeMonth (y - 1) 12 + daysInMonth (y - 1) 12 :=
        daysBeforeMonth_succ (y - 1) 12 (by omega)
      have h0 : daysBeforeMonth y 1 = 0 := rfl
      simp only [ValidDate, absDay, nextDay]
      refine ⟨⟨by omega, by omega, by omega, by omega, by omega⟩, ?_, ?_⟩
      · cases hL : isLeap (y - 1) <;> rw [hL] at h1 h2' <;>
          simp at h1 h2' <;> omega
      · rw [if_neg (by omega)]
        rw [if_neg (by omega)]
        congr 1

theorem nthDay_add (a b : Nat) (t : GoDate) :
    nthDay (a + b) t = nthDay b (nthDay a t) := by
  induction a generalizing t with
  | zero => rw [Nat.zero_add]; rfl
  | succ a ih =>
    have h : a + 1 + b = (a + b) + 1 := by omega
    rw [h]
    show nthDay (a + b) (nextDay t) = nthDay b (nthDay a (nextDay t))
    exact ih (nextDay t)

theorem nthDay_succ_back (k : Nat) (t : GoDate) :
    nthDay (k + 1) t = nextDay (nthDay k t) := by
  induction k generalizing t with
  | zero => rfl
  | succ k ih =>
    show nthDay (k + 1) (nextDay t) = nextDay (nthDay (k + 1) t)
    rw [ih (nextDay t)]
    rfl

theorem nthDay_spec (k : Nat) (t : GoDate) (hv : ValidDate t) :
    ValidDate (nthDay k t) ∧ absDay (nthDay k t) = absDay t + k := by
  induction k generalizing t with
  | zero => exact ⟨hv, rfl⟩
  | succ k ih =>
    obtain ⟨hv1, ha1⟩ := nextDay_spec t hv
    obtain ⟨hv2, ha2⟩ := ih (nextDay t) hv1
    exact ⟨hv2, by show absDay (nthDay k (nextDay t)) = _; omega⟩

theorem nthDay_within (j y m d : Nat) (hd : 1 ≤ d)
    (hj : d + j ≤ daysInMonth y m) :
    nthDay j ⟨y, m, d⟩ = ⟨y, m, d + j⟩ := by
  induction j generalizing d with
  | zero => rfl
  | succ j ih =>
    show nthDay j (nextDay ⟨y, m, d⟩) = _
    have hn : nextDay ⟨y, m, d⟩ = ⟨y, m, d + 1⟩ := by
      simp only [nextDay]
      rw [if_pos (by omega)]
    rw [hn, ih (d + 1) (by omega) (by omega)]
    congr 1
    omega

theorem absDay_111 : absDay ⟨1, 1, 1⟩ = 1 := by
  simp [absDay, daysBeforeYear, daysBeforeMonth]

theorem valid_two_le (t : GoDate) (hv : ValidDate t) (ha : 2 ≤ absDay t) :
    2 ≤ t.year ∨ 2 ≤ t.month ∨ 2 ≤ t.day := by
  by_contra hc
  push_neg at hc
  obtain ⟨hy, hm, hd⟩ := hc
  obtain ⟨h1, h2, h3, h4, h5⟩ := hv
  have hy1 : t.year = 1 := by omega
  have hm1 : t.month = 1 := by omega
  have hd1 : t.day = 1 := by omega
  have : t = ⟨1, 1, 1⟩ := by
    obtain ⟨a, b, c⟩ := t
    simp only at hy1 hm1 hd1
    rw [hy1, hm1, hd1]
  rw [this, absDay_111] at ha
  omega

theorem subDays_spec (k : Nat) (t : GoDate) (hv : ValidDate t)
    (hk : k + 2 ≤ absDay t) :
    ValidDate (subDays k t) ∧ absDay (subDays k t) + k = absDay t ∧
      nthDay k (subDays k t) = t := by
  induction k generalizing t with
  | zero => exact ⟨hv, rfl, rfl⟩
  | succ k ih =>
    have h2 : 2 ≤ t.year ∨ 2 ≤ t.month ∨ 2 ≤ t.day :=
      valid_two_le t hv (by omega)
    obtain ⟨hpv, hpa, hpn⟩ := prevDay_spec t hv h2
    obtain ⟨hv2, ha2, hn2⟩ := ih (prevDay t) hpv (by omega)
    refine ⟨hv2, ?_, ?_⟩
    · show absDay (subDays k (prevDay t)) + (k + 1) = absDay t
      omega
    · show nthDay (k + 1) (subDays k (prevDay t)) = t
      rw [nthDay_succ_back, hn2, hpn]

/-! ## Structure of the calendar grid loops -/

theorem buildWeek_eq (year month : Nat) (sd : SpecialDays) (n : Nat)
    (cur : GoDate) :
    buildWeek year month sd n cur =
      ((List.range n).map (fun i => mkDay year month sd (nthDay i cur)),
        nthDay n cur) := by
  induction n generalizing cur with
  | zero => rfl
  | succ n ih =>
    have step : buildWeek year month sd (n + 1) cur =
        (mkDay year month sd cur ::
            (buildWeek year month sd n (nextDay cur)).1,
          (buildWeek year month sd n (nextDay cur)).2) := rfl
    rw [step, ih (nextDay cur)]
    rw [List.range_succ_eq_map, List.map_cons, List.map_map]
    apply Prod.ext
    · show mkDay year month sd cur :: _ =
        mkDay year month sd (nthDay 0 cur) :: _
      congr 1
    · rfl

theorem buildWeeks_spec (year month : Nat) (sd : SpecialDays)
    (lastAbs : Nat) (fuel : Nat) (cur : GoDate) (hv : ValidDate cur)
    (h1 : absDay cur ≤ lastAbs) (h2 : lastAbs < absDay cur + 7 * fuel) :
    (buildWeeks year month sd lastAbs fuel cur).length =
        (lastAbs + 7 - absDay cur) / 7 ∧
    (∀ w ∈ buildWeeks year month sd lastAbs fuel cur, w.length = 7) ∧
    (buildWeeks year month sd lastAbs fuel cur).flatten =
      (List.range
          (7 * (buildWeeks year month sd lastAbs fuel cur).length)).map
        (fun i => mkDay year month sd (nthDay i cur)) := by
  induction fuel generalizing cur with
  | zero => exfalso; omega
  | succ fuel ih =>
    have hb := buildWeek_eq year month sd 7 cur
    obtain ⟨hn7v, hn7a⟩ := nthDay_spec 7 cur hv
    set nx := nthDay 7 cur with hnx
    clear_value nx
    have hb1 : (buildWeek year month sd 7 cur).1 =
        (List.range 7).map (fun i => mkDay year month sd (nthDay i cur)) := by
      rw [hb]
    have hb2 : (buildWeek year month sd 7 cur).2 = nx := by
      rw [hb]
    have stepA : buildWeeks year month sd lastAbs (fuel + 1) cur =
        if lastAbs < absDay (buildWeek year month sd 7 cur).2 then
          [(buildWeek year month sd 7 cur).1]
        else
          (buildWeek year month sd 7 cur).1 ::
            buildWeeks year month sd lastAbs fuel
              (buildWeek year month sd 7 cur).2 := rfl
    have stepw : buildWeeks year month sd lastAbs (fuel + 1) cur =
        if lastAbs < absDay nx then
          [(List.range 7).map (fun i => mkDay year month sd (nthDay i cur))]
        else
          ((List.range 7).map (fun i => mkDay year month sd (nthDay i cur))) ::
            buildWeeks year month sd lastAbs fuel nx :=
      stepA.trans
        (if_congr (by rw [hb2]) (by rw [hb1])
          (by rw [hb1, hb2]))
    rw [stepw]
    clear stepw stepA hb1 hb2 hb
    split
    · rename_i h
      refine ⟨?_, ?_, ?_⟩
      · simp only [List.length_singleton]
        omega
      · intro w hw
        simp only [List.mem_singleton] at hw
        subst hw
        simp
      · simp [List.flatten]
    · rename_i h
      obtain ⟨ihl, ihw, ihj⟩ := ih nx hn7v (by omega) (by omega)
      refine ⟨?_, ?_, ?_⟩
      · simp only [List.length_cons, ihl]
        omega
      · intro w hw
        simp only [List.mem_cons] at hw
        rcases hw with hw | hw
        · subst hw; simp
        · exact ihw w hw
      · simp only [List.flatten_cons, List.length_cons, ihj]
        have h7 : 7 * ((buildWeeks year month sd lastAbs fuel nx).length + 1) =
            7 + 7 * (buildWeeks year month sd lastAbs fuel nx).length := by
          omega
        rw [h7, List.range_add, List.map_append, List.map_map]
        congr 1
        apply List.map_congr_left
        intro i _
        simp only [Function.comp_apply]
        rw [hnx, ← nthDay_add]

/-! ## C3: shape of the calendar grid -/

/-- **C3.** For every year (≥ 2, the embedding covers positive-year
dates), month 1-12 and week-start weekday 0-6, `NewCalendar` succeeds
and the grid has: every week exactly 7 days; total day count `7 *`
weeks (a multiple of 7, no incomplete trailing week); first day's weekday
equal to the week-start; every day of the target month present; the
week count is the least number of full weeks covering
`startOffset + daysInMonth` days (so no week is added once the month's
last day is included and the week completed); and 4-6 weeks. -/
theorem calendar_grid_shape (year month ws : Nat) (sd : SpecialDays)
    (hy : 2 ≤ year) (hm1 : 1 ≤ month) (hm2 : month ≤ 12) (hws : ws ≤ 6) :
    ∃ cal, NewCalendar year month ws sd = .ok cal ∧
      (∀ w ∈ cal.weeks, w.length = 7) ∧
      cal.weeks.flatten.length = 7 * cal.weeks.length ∧
      (cal.weeks.flatten.map (fun dy => weekdayOf dy.date)).head? =
        some ws ∧
      (∀ d, 1 ≤ d → d ≤ daysInMonth year month →
        ∃ dy ∈ cal.weeks.flatten,
          dy.date = (⟨year, month, d⟩ : GoDate)) ∧
      (weekdayOf ⟨year, month, 1⟩ + 7 - ws) % 7 + daysInMonth year month ≤
        7 * cal.weeks.length ∧
      7 * (cal.weeks.length - 1) <
        (weekdayOf ⟨year, month, 1⟩ + 7 - ws) % 7 + daysInMonth year month ∧
      4 ≤ cal.weeks.length ∧ cal.weeks.length ≤ 6 := by
  have hdim28 : 28 ≤ daysInMonth year month := daysInMonth_ge _ _ hm1 hm2
  have hdim31 : daysInMonth year month ≤ 31 := daysInMonth_le _ _
  have hvFirst : ValidDate ⟨year, month, 1⟩ :=
    ⟨by omega, hm1, hm2, by omega, by omega⟩
  have habs1 : absDay ⟨year, month, 1⟩ =
      daysBeforeYear year + daysBeforeMonth year month + 1 := rfl
  have hlast : absDay ⟨year, month, daysInMonth year month⟩ =
      daysBeforeYear year + daysBeforeMonth year month +
        daysInMonth year month := rfl
  have hlb : 365 ≤ daysBeforeYear year := daysBeforeYear_lb year hy
  have hwf : weekdayOf ⟨year, month, 1⟩ =
      (daysBeforeYear year + daysBeforeMonth year month + 1) % 7 := rfl
  set so := (weekdayOf ⟨year, month, 1⟩ + 7 - ws) % 7 with hso
  have hso7 : so < 7 := by omega
  obtain ⟨hsv, hsa, hsn⟩ :=
    subDays_spec so ⟨year, month, 1⟩ hvFirst (by omega)
  have hwstart : weekdayOf (subDays so ⟨year, month, 1⟩) = ws := by
    have : weekdayOf (subDays so ⟨year, month, 1⟩) =
        absDay (subDays so ⟨year, month, 1⟩) % 7 := rfl
    rw [this]
    omega
  obtain ⟨hL, hW, hJ⟩ := buildWeeks_spec year month sd
    (absDay ⟨year, month, daysInMonth year month⟩) 6
    (subDays so ⟨year, month, 1⟩) hsv (by omega) (by omega)
  set L := buildWeeks year month sd
    (absDay ⟨year, month, daysInMonth year month⟩) 6
    (subDays so ⟨year, month, 1⟩) with hLdef
  clear_value L
  have hlen : L.length = (so + daysInMonth year month + 6) / 7 := by
    rw [hL]; omega
  have hlen4 : 4 ≤ L.length := by omega
  have hlen6 : L.length ≤ 6 := by omega
  have hcov : so + daysInMonth year month ≤ 7 * L.length := by omega
  have hmin : 7 * (L.length - 1) < so + daysInMonth year month := by omega
  refine ⟨⟨year, month, L, ws, sd⟩, ?_, hW, ?_, ?_, ?_, hcov, hmin,
    hlen4, hlen6⟩
  · show NewCalendar year month ws sd = _
    unfold NewCalendar
    rw [if_neg (by simp only [Bool.or_eq_true, decide_eq_true_eq]; omega)]
    rw [hLdef]
  · show L.flatten.length = 7 * L.length
    rw [hJ]
    simp
  · show (L.flatten.map (fun dy => weekdayOf dy.date)).head? = some ws
    obtain ⟨k, hk⟩ : ∃ k, 7 * L.length = k + 1 := ⟨7 * L.length - 1, by omega⟩
    rw [hJ, hk, List.range_succ_eq_map, List.map_cons, List.map_cons]
    show some (weekdayOf (subDays so ⟨year, month, 1⟩)) = some ws
    rw [hwstart]
  · intro d hd1 hd2
    refine ⟨mkDay year month sd
      (nthDay (so + (d - 1)) (subDays so ⟨year, month, 1⟩)), ?_, ?_⟩
    · rw [hJ]
      refine List.mem_map.mpr ⟨so + (d - 1), List.mem_range.mpr (by omega),
        rfl⟩
    · show nthDay (so + (d - 1)) (subDays so ⟨year, month, 1⟩) = _
      rw [nthDay_add, hsn, nthDay_within (d - 1) year month 1 (by omega)
        (by omega)]
      congr 1
      omega

/-! ## C10: weekends always count as holidays -/

/-- **C10.** A day falling on a Saturday (6) or Sunday (0) has
`IsHoliday() = true` regardless of any attached special day (even one
with the holiday flag false); on any other weekday `IsHoliday()`
returns the attached special day's flag, or false when none is
attached. -/
theorem isHoliday_weekend_override (d : Day) :
    ((weekdayOf d.date = 6 ∨ weekdayOf d.date = 0) →
      d.IsHoliday = true) ∧
    (¬(weekdayOf d.date = 6 ∨ weekdayOf d.date = 0) →
      d.IsHoliday = (d.special.map SpecialDay.holiday).getD false) := by
  constructor
  · intro h
    have hc : (weekdayOf d.date == 6 || weekdayOf d.date == 0) = true := by
      simp only [Bool.or_eq_true, beq_iff_eq]
      exact h
    unfold Day.IsHoliday
    rw [if_pos hc]
  · intro h
    have hc : ¬((weekdayOf d.date == 6 || weekdayOf d.date == 0) = true) := by
      simp only [Bool.or_eq_true, beq_iff_eq]
      exact h
    unfold Day.IsHoliday
    rw [if_neg hc]
    cases hs : d.special <;> simp [hs]

/-- Witness: 2024-10-05 is a Saturday; a day carrying a special day
with holiday flag `false` still reports a holiday. -/
theorem isHoliday_weekend_override_witness :
    (weekdayOf (⟨2024, 10, 5⟩ : GoDate) = 6 ∨
      weekdayOf (⟨2024, 10, 5⟩ : GoDate) = 0) ∧
    Day.IsHoliday ⟨⟨2024, 10, 5⟩, 5, true,
      some ⟨⟨2024, 10, 5⟩, false, [], ⟨[], [], 0⟩⟩⟩ = true := by
  refine ⟨by decide, ?_⟩
  exact (isHoliday_weekend_override
    ⟨⟨2024, 10, 5⟩, 5, true, some ⟨⟨2024, 10, 5⟩, false, [], ⟨[], [], 0⟩⟩⟩).1
    (by decide)

/-! ## C1: order of field evaluation and the skip short-circuit -/

/-- **C1 (counterexample to the claim as stated).** A record whose
text field signals skip (`((0))`) and whose icon field holds a
malformed expression (`((foo))`) does NOT fail the load: the icon is
never evaluated, the record is silently omitted, and the load
succeeds with an empty store — the claim predicts failure with the
evaluation error. -/
theorem text_skip_masks_icon_error_counterexample :
    loadDays ['2', '/', '1'] ⟨2024, 3⟩
      [⟨['1', '8', '/', '3'], false,
        ['(', '(', 'f', 'o', 'o', ')', ')'],
        ['(', '(', '0', ')', ')'], [], 0⟩] [] = .ok [] := by
  decide

/-- **C1 (amended).** The loader evaluates the text field, then the
icon field, then the font field, in that fixed order, but stops at
the first field whose skip flag is set: later fields are then not
evaluated (so an error in them goes undetected and the record is
silently omitted, the load succeeding). An error in a field that is
evaluated aborts the whole load. -/
theorem field_evaluation_order (fmt : List Char) (r : DayRecord)
    (cfg : Config) (key : SpecialDaysKey) (rest : List DayRecord)
    (acc : SpecialDays)
    (hk : specialDaysKeyFromString fmt r.when cfg = .ok key) :
    (∀ e, evaluateExpressionsWithSkip cfg
        (goTimeDate cfg.year key.month key.day) r.text = .error e →
      loadDays fmt cfg (r :: rest) acc =
        .error ("error evaluating text: " ++ e)) ∧
    (∀ t, evaluateExpressionsWithSkip cfg
        (goTimeDate cfg.year key.month key.day) r.text = .ok (t, true) →
      loadDays fmt cfg (r :: rest) acc = loadDays fmt cfg rest acc) ∧
    (∀ t e, evaluateExpressionsWithSkip cfg
        (goTimeDate cfg.year key.month key.day) r.text = .ok (t, false) →
      evaluateExpressionsWithSkip cfg
        (goTimeDate cfg.year key.month key.day) r.icon = .error e →
      loadDays fmt cfg (r :: rest) acc =
        .error ("error evaluating icon: " ++ e)) ∧
    (∀ t i, evaluateExpressionsWithSkip cfg
        (goTimeDate cfg.year key.month key.day) r.text = .ok (t, false) →
      evaluateExpressionsWithSkip cfg
        (goTimeDate cfg.year key.month key.day) r.icon = .ok (i, true) →
      loadDays fmt cfg (r :: rest) acc = loadDays fmt cfg rest acc) ∧
    (∀ t i e, evaluateExpressionsWithSkip cfg
        (goTimeDate cfg.year key.month key.day) r.text = .ok (t, false) →
      evaluateExpressionsWithSkip cfg
        (goTimeDate cfg.year key.month key.day) r.icon = .ok (i, false) →
      evaluateExpressionsWithSkip cfg
        (goTimeDate cfg.year key.month key.day) r.font = .error e →
      loadDays fmt cfg (r :: rest) acc =
        .error ("error evaluating font: " ++ e)) ∧
    (∀ t i f, evaluateExpressionsWithSkip cfg
        (goTimeDate cfg.year key.month key.day) r.text = .ok (t, false) →
      evaluateExpressionsWithSkip cfg
        (goTimeDate cfg.year key.month key.day) r.icon = .ok (i, false) →
      evaluateExpressionsWithSkip cfg
        (goTimeDate cfg.year key.month key.day) r.font = .ok (f, true) →
      loadDays fmt cfg (r :: rest) acc = loadDays fmt cfg rest acc) ∧
    (∀ t i f, evaluateExpressionsWithSkip cfg
        (goTimeDate cfg.year key.month key.day) r.text = .ok (t, false) →
      evaluateExpressionsWithSkip cfg
        (goTimeDate cfg.year key.month key.day) r.icon = .ok (i, false) →
      evaluateExpressionsWithSkip cfg
        (goTimeDate cfg.year key.month key.day) r.font = .ok (f, false) →
      loadDays fmt cfg (r :: rest) acc = loadDays fmt cfg rest
        (insertDay acc key ⟨goTimeDate cfg.year key.month key.day,
          r.holiday, i, ⟨t, f, r.size⟩⟩)) := by
  refine ⟨?_, ?_, ?_, ?_, ?_, ?_, ?_⟩
  · intro e h1
    simp [loadDays, resolveRecord, hk, h1]
  · intro t h1
    simp [loadDays, resolveRecord, hk, h1]
  · intro t e h1 h2
    simp [loadDays, resolveRecord, hk, h1, h2]
  · intro t i h1 h2
    simp [loadDays, resolveRecord, hk, h1, h2]
  · intro t i e h1 h2 h3
    simp [loadDays, resolveRecord, hk, h1, h2, h3]
  · intro t i f h1 h2 h3
    simp [loadDays, resolveRecord, hk, h1, h2, h3]
  · intro t i f h1 h2 h3
    simp [loadDays, resolveRecord, hk, h1, h2, h3]

/-- Witness for the amended C1: with text `((0))` (skip) and icon
`((foo))` (malformed), the record is dropped and the load of the
remaining (empty) list proceeds: the theorem's skip conjunct applies
and the result is `.ok []`. -/
theorem field_evaluation_order_witness :
    specialDaysKeyFromString ['2', '/', '1']
      ['1', '8', '/', '3'] ⟨2024, 3⟩ = .ok ⟨3, 18⟩ ∧
    evaluateExpressionsWithSkip ⟨2024, 3⟩ (goTimeDate 2024 3 18)
      ['(', '(', '0', ')', ')'] = .ok (['0'], true) ∧
    loadDays ['2', '/', '1'] ⟨2024, 3⟩
      [⟨['1', '8', '/', '3'], false,
        ['(', '(', 'f', 'o', 'o', ')', ')'],
        ['(', '(', '0', ')', ')'], [], 0⟩] [] =
      loadDays ['2', '/', '1'] ⟨2024, 3⟩ [] [] := by
  refine ⟨by decide, by decide, ?_⟩
  exact (field_evaluation_order ['2', '/', '1']
    ⟨['1', '8', '/', '3'], false,
      ['(', '(', 'f', 'o', 'o', ')', ')'],
      ['(', '(', '0', ')', ')'], [], 0⟩
    ⟨2024, 3⟩ ⟨3, 18⟩ [] [] (by decide)).2.1 ['0'] (by decide)

/-! ## Store lemmas: lookup, update, uniqueness -/

theorem findDay_map_update_ne (m : SpecialDays) (k k' : SpecialDaysKey)
    (v : SpecialDay) (h : k' ≠ k) :
    findDay (m.map (fun p => if p.1 == k then (k, v) else p)) k' =
      findDay m k' := by
  induction m with
  | nil => rfl
  | cons p rest ih =>
    show findDay ((if p.1 == k then (k, v) else p) ::
      rest.map (fun p => if p.1 == k then (k, v) else p)) k' =
      findDay (p :: rest) k'
    by_cases hp : p.1 = k
    · rw [if_pos (by simpa using hp)]
      unfold findDay
      rw [List.find?_cons_of_neg _ (by simp [Ne.symm h]),
        List.find?_cons_of_neg _ (by simp [hp, Ne.symm h])]
      exact ih
    · rw [if_neg (by simpa using hp)]
      by_cases hq : p.1 = k'
      · unfold findDay
        rw [List.find?_cons_of_pos _ (by simp [hq]),
          List.find?_cons_of_pos _ (by simp [hq])]
      · unfold findDay
        rw [List.find?_cons_of_neg _ (by simp [hq]),
          List.find?_cons_of_neg _ (by simp [hq])]
        exact ih

theorem findDay_map_update_self (m : SpecialDays) (k : SpecialDaysKey)
    (v : SpecialDay) (h : m.any (fun p => p.1 == k) = true) :
    findDay (m.map (fun p => if p.1 == k then (k, v) else p)) k = some v := by
  induction m with
  | nil => simp at h
  | cons p rest ih =>
    show findDay ((if p.1 == k then (k, v) else p) ::
      rest.map (fun p => if p.1 == k then (k, v) else p)) k = some v
    by_cases hp : p.1 = k
    · rw [if_pos (by simpa using hp)]
      unfold findDay
      rw [List.find?_cons_of_pos _ (by simp)]
      rfl
    · rw [if_neg (by simpa using hp)]
      simp only [List.any_cons, Bool.or_eq_true] at h
      rcases h with h | h
      · exact absurd (by simpa using h) hp
      · unfold findDay
        rw [List.find?_cons_of_neg _ (by simp [hp])]
        exact ih h

theorem findDay_insertDay (m : SpecialDays) (k k' : SpecialDaysKey)
    (v : SpecialDay) :
    findDay (insertDay m k v) k' =
      if k' = k then some v else findDay m k' := by
  unfold insertDay
  split
  · rename_i h
    by_cases hk : k' = k
    · subst hk
      rw [if_pos rfl, findDay_map_update_self m k' v h]
    · rw [if_neg hk, findDay_map_update_ne m k k' v hk]
  · rename_i h
    have hall : ∀ p ∈ m, ¬((p.1 == k) = true) := fun p hp hcon =>
      h (List.any_eq_true.mpr ⟨p, hp, hcon⟩)
    by_cases hk : k' = k
    · subst hk
      rw [if_pos rfl]
      unfold findDay
      rw [List.find?_append, List.find?_eq_none.mpr hall, Option.none_or,
        List.find?_cons_of_pos _ (by simp)]
      rfl
    · rw [if_neg hk]
      unfold findDay
      rw [List.find?_append]
      cases hf : List.find? (fun p => p.1 == k') m with
      | some q => simp [hf]
      | none =>
        rw [Option.none_or, List.find?_cons_of_neg _ (by simp [Ne.symm hk])]
        rfl

theorem insertDay_keys_nodup (m : SpecialDays) (k : SpecialDaysKey)
    (v : SpecialDay) (h : (m.map (fun p => p.1)).Nodup) :
    ((insertDay m k v).map (fun p => p.1)).Nodup := by
  unfold insertDay
  split
  · rename_i ha
    have heq : (m.map (fun p => if p.1 == k then (k, v) else p)).map
        (fun p => p.1) = m.map (fun p => p.1) := by
      rw [List.map_map]
      apply List.map_congr_left
      intro p _
      by_cases hp : p.1 = k <;> simp [hp]
    rw [heq]
    exact h
  · rename_i ha
    have hall : ∀ p ∈ m, ¬((p.1 == k) = true) := fun p hp hcon =>
      ha (List.any_eq_true.mpr ⟨p, hp, hcon⟩)
    rw [List.map_append]
    simp only [List.map_cons, List.map_nil]
    rw [List.nodup_append]
    refine ⟨h, List.nodup_singleton k, ?_⟩
    intro a hm hs
    simp only [List.mem_singleton] at hs
    subst hs
    simp only [List.mem_map] at hm
    obtain ⟨p, hp, hpk⟩ := hm
    exact hall p hp (by simp [hpk])

theorem loadDays_keys_nodup (fmt : List Char) (cfg : Config)
    (recs : List DayRecord) :
    ∀ acc m, loadDays fmt cfg recs acc = .ok m →
      (acc.map (fun p => p.1)).Nodup → (m.map (fun p => p.1)).Nodup := by
  induction recs with
  | nil =>
    intro acc m h hn
    simp only [loadDays] at h
    cases h
    exact hn
  | cons r rest ih =>
    intro acc m h hn
    simp only [loadDays] at h
    cases hr : resolveRecord fmt r cfg with
    | error e => rw [hr] at h; cases h
    | ok o =>
      rw [hr] at h
      cases o with
      | none => exact ih acc m h hn
      | some kv =>
        exact ih (insertDay acc kv.1 kv.2) m h
          (insertDay_keys_nodup acc kv.1 kv.2 hn)

theorem loadDays_append (fmt : List Char) (cfg : Config)
    (xs ys : List DayRecord) :
    ∀ acc, loadDays fmt cfg (xs ++ ys) acc =
      match loadDays fmt cfg xs acc with
      | .ok acc' => loadDays fmt cfg ys acc'
      | .error e => .error e := by
  induction xs with
  | nil => intro acc; rfl
  | cons r xs ih =>
    intro acc
    show loadDays fmt cfg (r :: (xs ++ ys)) acc = _
    cases hr : resolveRecord fmt r cfg with
    | error e => simp [loadDays, hr]
    | ok o =>
      cases o with
      | none => simp [loadDays, hr, ih acc]
      | some kv => simp [loadDays, hr, ih (insertDay acc kv.1 kv.2)]

theorem getLast?_cons_or {α : Type} (a : α) (l : List α) :
    (a :: l).getLast? = l.getLast?.or (some a) := by
  cases l with
  | nil => rfl
  | cons b l =>
    rw [List.getLast?_cons_cons]
    cases hl : (b :: l).getLast? with
    | none =>
      exfalso
      have hs := List.getLast?_isSome (l := b :: l)
      rw [hl] at hs
      simp at hs
    | some w => simp

theorem loadDays_find (fmt : List Char) (cfg : Config)
    (recs : List DayRecord) :
    ∀ acc m, loadDays fmt cfg recs acc = .ok m →
      ∀ k, findDay m k = ((storesOf fmt cfg recs k).getLast?).or
        (findDay acc k) := by
  induction recs with
  | nil =>
    intro acc m h k
    simp only [loadDays] at h
    cases h
    simp [storesOf]
  | cons r rest ih =>
    intro acc m h k
    simp only [loadDays] at h
    cases hr : resolveRecord fmt r cfg with
    | error e => rw [hr] at h; cases h
    | ok o =>
      rw [hr] at h
      cases o with
      | none =>
        have hs : storesOf fmt cfg (r :: rest) k =
            storesOf fmt cfg rest k := by
          simp [storesOf, List.filterMap_cons, hr]
        rw [hs]
        exact ih acc m h k
      | some kv =>
        obtain ⟨k', v⟩ := kv
        have hfind := ih (insertDay acc k' v) m h k
        by_cases hk : k' = k
        · subst hk
          have hs : storesOf fmt cfg (r :: rest) k' =
              v :: storesOf fmt cfg rest k' := by
            simp [storesOf, List.filterMap_cons, hr]
          rw [hs, getLast?_cons_or, Option.or_assoc, hfind,
            findDay_insertDay]
          simp
        · have hs : storesOf fmt cfg (r :: rest) k =
              storesOf fmt cfg rest k := by
            simp [storesOf, List.filterMap_cons, hr, hk]
          rw [hs, hfind, findDay_insertDay, if_neg (Ne.symm hk)]

/-! ## C9: unique keys and last-write-wins -/

/-- **C9.** A successful load yields a store with at most one entry
per key (its key list is duplicate-free), and the entry under any key
is the resolved value of the last-processed record that stored
(non-skipped) under that key: later-processed records overwrite
earlier ones. -/
theorem store_unique_last_write (fmt : List Char) (cfg : Config)
    (recs : List DayRecord) (m : SpecialDays)
    (h : loadDays fmt cfg recs [] = .ok m) :
    (m.map (fun p => p.1)).Nodup ∧
    ∀ k, findDay m k = (storesOf fmt cfg recs k).getLast? := by
  constructor
  · exact loadDays_keys_nodup fmt cfg recs [] m h (by simp)
  · intro k
    have hf := loadDays_find fmt cfg recs [] m h k
    have hnone : findDay [] k = none := rfl
    rw [hnone] at hf
    rw [hf]
    exact Option.or_none

/-- Witness: two records with the same key `18/3`; the
later-processed one (text "B") wins and the store has one entry. -/
theorem store_unique_last_write_witness :
    loadDays ['2', '/', '1'] (⟨2024, 3⟩ : Config)
      [⟨['1', '8', '/', '3'], false, [], ['A'], [], 0⟩,
       ⟨['1', '8', '/', '3'], true, [], ['B'], [], 0⟩] [] =
      .ok [((⟨3, 18⟩ : SpecialDaysKey),
        (⟨⟨2024, 3, 18⟩, true, [], ⟨['B'], [], 0⟩⟩ : SpecialDay))] ∧
    (([((⟨3, 18⟩ : SpecialDaysKey),
        (⟨⟨2024, 3, 18⟩, true, [], ⟨['B'], [], 0⟩⟩ : SpecialDay))] :
        SpecialDays).map (fun p => p.1)).Nodup ∧
    findDay [((⟨3, 18⟩ : SpecialDaysKey),
        (⟨⟨2024, 3, 18⟩, true, [], ⟨['B'], [], 0⟩⟩ : SpecialDay))]
        ⟨3, 18⟩ =
      (storesOf ['2', '/', '1'] (⟨2024, 3⟩ : Config)
        [⟨['1', '8', '/', '3'], false, [], ['A'], [], 0⟩,
         ⟨['1', '8', '/', '3'], true, [], ['B'], [], 0⟩]
        ⟨3, 18⟩).getLast? ∧
    (storesOf ['2', '/', '1'] (⟨2024, 3⟩ : Config)
      [⟨['1', '8', '/', '3'], false, [], ['A'], [], 0⟩,
       ⟨['1', '8', '/', '3'], true, [], ['B'], [], 0⟩]
      ⟨3, 18⟩).getLast? =
      some (⟨⟨2024, 3, 18⟩, true, [], ⟨['B'], [], 0⟩⟩ : SpecialDay) := by
  have hload : loadDays ['2', '/', '1'] (⟨2024, 3⟩ : Config)
      [⟨['1', '8', '/', '3'], false, [], ['A'], [], 0⟩,
       ⟨['1', '8', '/', '3'], true, [], ['B'], [], 0⟩] [] =
      .ok [((⟨3, 18⟩ : SpecialDaysKey),
        (⟨⟨2024, 3, 18⟩, true, [], ⟨['B'], [], 0⟩⟩ : SpecialDay))] := by
    decide
  have hthm := store_unique_last_write ['2', '/', '1'] (⟨2024, 3⟩ : Config)
    [⟨['1', '8', '/', '3'], false, [], ['A'], [], 0⟩,
     ⟨['1', '8', '/', '3'], true, [], ['B'], [], 0⟩]
    [((⟨3, 18⟩ : SpecialDaysKey),
      (⟨⟨2024, 3, 18⟩, true, [], ⟨['B'], [], 0⟩⟩ : SpecialDay))] hload
  exact ⟨hload, hthm.1, hthm.2 ⟨3, 18⟩, by decide⟩

/-! ## C6: errors abort the whole load -/

/-- **C6.** If, after any number of successfully processed records,
some record's key resolution or the evaluation of one of its reached
expression fields reports an error, the whole load returns that error
regardless of the records that follow — no part of the store built from
the earlier records is returned (in Go the returned map is nil). The
`((foo))` unknown identifier is such an error, wrapped by the text
evaluation step. -/
theorem load_all_or_nothing (fmt : List Char) (cfg : Config)
    (pre : List DayRecord) (r : DayRecord) (post : List DayRecord)
    (acc acc' : SpecialDays) (e : String)
    (h1 : loadDays fmt cfg pre acc = .ok acc')
    (h2 : resolveRecord fmt r cfg = .error e) :
    loadDays fmt cfg (pre ++ r :: post) acc = .error e ∧
    resolveRecord ['2', '/', '1']
      ⟨['1', '8', '/', '3'], false, [],
        ['(', '(', 'f', 'o', 'o', ')', ')'], [], 0⟩ (⟨2024, 3⟩ : Config) =
      .error ("error evaluating text: expression evaluation error: " ++
        "unknown variable") := by
  constructor
  · rw [loadDays_append fmt cfg pre (r :: post) acc, h1]
    simp [loadDays, h2]
  · decide

/-- Witness: the `((foo))` record alone makes the whole load fail. -/
theorem load_all_or_nothing_witness :
    loadDays ['2', '/', '1'] (⟨2024, 3⟩ : Config)
      ([] ++ (⟨['1', '8', '/', '3'], false, [],
        ['(', '(', 'f', 'o', 'o', ')', ')'], [], 0⟩ : DayRecord) :: []) [] =
      .error ("error evaluating text: expression evaluation error: " ++
        "unknown variable") :=
  (load_all_or_nothing ['2', '/', '1'] (⟨2024, 3⟩ : Config) [] _ [] [] [] _
    rfl (by decide)).1

/-- Witness for C2 at the spec's instance: the third Sunday of
October 2024 is day 20. -/
theorem ordinal_weekday_resolution_witness :
    calculateOrdinalWeekdayDate ⟨2024, 10⟩ 10 (3 : Nat) 0 = .ok 20 :=
  (ordinal_weekday_resolution ⟨2024, 10⟩ 10 0 3 (by decide) (by decide)
    (by decide) (by decide) (by decide)).2.2

/-- Witness for C7 at the spec's instance: the last Monday of March
2024 is day 25. -/
theorem last_weekday_resolution_witness :
    calculateOrdinalWeekdayDate ⟨2024, 3⟩ 3 (-1) 1 = .ok 25 :=
  (last_weekday_resolution ⟨2024, 3⟩ 3 1 (by decide) (by decide)
    (by decide)).2

/-- Witness for C3 at October 2024 with week start Sunday and an empty
store. -/
theorem calendar_grid_shape_witness :
    ∃ cal, NewCalendar 2024 10 0 [] = .ok cal ∧
      (∀ w ∈ cal.weeks, w.length = 7) ∧
      cal.weeks.flatten.length = 7 * cal.weeks.length ∧
      (cal.weeks.flatten.map (fun dy => weekdayOf dy.date)).head? =
        some 0 ∧
      (∀ d, 1 ≤ d → d ≤ daysInMonth 2024 10 →
        ∃ dy ∈ cal.weeks.flatten,
          dy.date = (⟨2024, 10, d⟩ : GoDate)) ∧
      (weekdayOf ⟨2024, 10, 1⟩ + 7 - 0) % 7 + daysInMonth 2024 10 ≤
        7 * cal.weeks.length ∧
      7 * (cal.weeks.length - 1) <
        (weekdayOf ⟨2024, 10, 1⟩ + 7 - 0) % 7 + daysInMonth 2024 10 ∧
      4 ≤ cal.weeks.length ∧ cal.weeks.length ≤ 6 :=
  calendar_grid_shape 2024 10 0 [] (by decide) (by decide) (by decide)
    (by decide)

/-! ## Scanner lemmas -/

theorem tryMatch_none (c : Char) (rest : List Char) (hc : c ≠ '(') :
    tryMatch (c :: rest) = none := by
  unfold tryMatch
  split
  · rename_i h
    exfalso
    cases h
    exact hc rfl
  · rfl

theorem takeWhile_no_rparen (e l : List Char)
    (he : ∀ c ∈ e, c ≠ ')') :
    (e ++ ')' :: l).takeWhile (fun c => c ≠ ')') = e ∧
    (e ++ ')' :: l).dropWhile (fun c => c ≠ ')') = ')' :: l := by
  induction e with
  | nil => simp
  | cons c e ih =>
    obtain ⟨ih1, ih2⟩ := ih (fun c hm => he c (by simp [hm]))
    have hc : c ≠ ')' := he c (by simp)
    constructor
    · rw [List.cons_append, List.takeWhile_cons, if_pos (by simpa using hc),
        ih1]
    · rw [List.cons_append, List.dropWhile_cons, if_pos (by simpa using hc),
        ih2]

theorem tryMatch_marker (e rest : List Char) (hne : e ≠ [])
    (he : ∀ c ∈ e, c ≠ ')') :
    tryMatch ('(' :: '(' :: (e ++ ')' :: ')' :: rest)) = some (e, rest) := by
  obtain ⟨htake, hdrop⟩ := takeWhile_no_rparen e (')' :: rest) he
  show (let inner := (e ++ ')' :: ')' :: rest).takeWhile (fun c => c ≠ ')')
    if inner.isEmpty then none
    else
      match (e ++ ')' :: ')' :: rest).dropWhile (fun c => c ≠ ')') with
      | ')' :: ')' :: rem => some (inner, rem)
      | _ => none) = some (e, rest)
  simp only [htake, hdrop]
  rw [if_neg (by simp [hne])]

theorem scanExprs_step (cfg : Config) (date : GoDate) (fuel : Nat)
    (c : Char) (cs : List Char) :
    scanExprs cfg date (fuel + 1) (c :: cs) =
      match tryMatch (c :: cs) with
      | some (inner, rem) =>
        (match evaluateArithmetic cfg date inner with
         | .error e => .error ("expression evaluation error: " ++ e)
         | .ok v =>
           match scanExprs cfg date fuel rem with
           | .error e => .error e
           | .ok (tailRes, tailSkip) =>
             .ok (itoa v ++ tailRes, tailSkip || decide (v ≤ 0)))
      | none =>
        match scanExprs cfg date fuel cs with
        | .error e => .error e
        | .ok (tailRes, tailSkip) => .ok (c :: tailRes, tailSkip) := rfl

theorem glueMarkers_cons (c : Char) (seg : List Char)
    (ps : List (List Char × Int × List Char)) :
    glueMarkers (c :: seg) ps = c :: glueMarkers seg ps := by
  cases ps <;> simp [glueMarkers]

theorem substMarkers_cons (c : Char) (seg : List Char)
    (ps : List (List Char × Int × List Char)) :
    substMarkers (c :: seg) ps = c :: substMarkers seg ps := by
  cases ps <;> simp [substMarkers]

/-- The central scanner lemma: on a text decomposed into marker-free
segments and well-formed markers with known values, the scan succeeds,
substitutes every marker, leaves the segments unchanged, and reports
skip exactly when some value is ≤ 0. -/
theorem scan_glue (cfg : Config) (date : GoDate) :
    ∀ (fuel : Nat) (seg : List Char)
      (ps : List (List Char × Int × List Char)),
      (∀ c ∈ seg, c ≠ '(') →
      (∀ p ∈ ps, p.1 ≠ [] ∧ (∀ c ∈ p.1, c ≠ ')') ∧
        (∀ c ∈ p.2.2, c ≠ '(') ∧
        evaluateArithmetic cfg date p.1 = .ok p.2.1) →
      (glueMarkers seg ps).length ≤ fuel →
      scanExprs cfg date fuel (glueMarkers seg ps) =
        .ok (substMarkers seg ps,
          ps.any (fun p => decide (p.2.1 ≤ 0))) := by
  intro fuel
  induction fuel with
  | zero =>
    intro seg ps hseg hps hlen
    cases seg with
    | cons c s =>
      rw [glueMarkers_cons] at hlen
      simp at hlen
    | nil =>
      cases ps with
      | nil => rfl
      | cons p ps' =>
        obtain ⟨e, v, seg'⟩ := p
        simp [glueMarkers] at hlen
  | succ fuel ih =>
    intro seg ps hseg hps hlen
    cases seg with
    | cons c s =>
      have hc : c ≠ '(' := hseg c (by simp)
      rw [glueMarkers_cons] at hlen ⊢
      rw [scanExprs_step, tryMatch_none c _ hc]
      rw [ih s ps (fun x hx => hseg x (by simp [hx])) hps
        (by simpa using Nat.le_of_succ_le_succ (by simpa using hlen))]
      rw [substMarkers_cons]
    | nil =>
      cases ps with
      | nil => rfl
      | cons p ps' =>
        obtain ⟨e, v, seg'⟩ := p
        obtain ⟨hne, hrp, hlp, hval⟩ := hps (e, v, seg') (by simp)
        have hglue : glueMarkers ([] : List Char) ((e, v, seg') :: ps') =
            '(' :: '(' :: (e ++ ')' :: ')' :: glueMarkers seg' ps') := by
          simp [glueMarkers]
        rw [hglue] at hlen ⊢
        rw [scanExprs_step, tryMatch_marker e _ hne hrp]
        simp only [hval]
        have hlen' : (glueMarkers seg' ps').length ≤ fuel := by
          simp only [List.length_cons, List.length_append] at hlen
          omega
        rw [ih seg' ps' hlp
          (fun q hq => hps q (by simp [hq])) hlen']
        simp [substMarkers, Bool.or_comm]

/-- `evaluateExpressionsWithSkip` on a decomposed text. -/
theorem evaluateExpressionsWithSkip_glue (cfg : Config) (date : GoDate)
    (seg : List Char) (ps : List (List Char × Int × List Char))
    (hseg : ∀ c ∈ seg, c ≠ '(')
    (hps : ∀ p ∈ ps, p.1 ≠ [] ∧ (∀ c ∈ p.1, c ≠ ')') ∧
      (∀ c ∈ p.2.2, c ≠ '(') ∧
      evaluateArithmetic cfg date p.1 = .ok p.2.1) :
    evaluateExpressionsWithSkip cfg date (glueMarkers seg ps) =
      .ok (substMarkers seg ps, ps.any (fun p => decide (p.2.1 ≤ 0))) := by
  unfold evaluateExpressionsWithSkip
  by_cases hmt : glueMarkers seg ps = []
  · rw [hmt]
    cases seg with
    | cons c s => rw [glueMarkers_cons] at hmt; cases hmt
    | nil =>
      cases ps with
      | nil => rfl
      | cons p ps' =>
        obtain ⟨e, v, seg'⟩ := p
        simp [glueMarkers] at hmt
  · rw [if_neg (by simpa using hmt)]
    exact scan_glue cfg date _ seg ps hseg hps (le_refl _)

/-! ## Tokenizer lemmas -/

theorem dropWhile_clean (s : List Char)
    (h : ∀ c ∈ s, isSpaceChar c = false) :
    s.dropWhile isSpaceChar = s := by
  cases s with
  | nil => rfl
  | cons c cs => simp [List.dropWhile_cons, h c (by simp)]

theorem trim_clean (s : List Char)
    (h : ∀ c ∈ s, isSpaceChar c = false) :
    trimSpace s = s := by
  unfold trimSpace
  rw [dropWhile_clean s h,
    dropWhile_clean s.reverse (fun c hm => h c (by simpa using hm)),
    List.reverse_reverse]

theorem tokenizeGo_step (c : Char) (rest : List Char)
    (tokens : List (List Char)) (current : List Char) :
    tokenizeGo (c :: rest) tokens current =
      if c = '+' ∨ c = '-' then
        let tokens' := flushToken tokens current
        if c = '-' ∧ (tokens' = [] ∨ tokens'.getLast? = some ['+'] ∨
            tokens'.getLast? = some ['-']) then
          tokenizeGo rest tokens' ['-']
        else
          tokenizeGo rest (tokens' ++ [[c]]) []
      else if c = ' ' then
        if current.isEmpty then tokenizeGo rest tokens current
        else tokenizeGo rest tokens (current ++ [c])
      else tokenizeGo rest tokens (current ++ [c]) := rfl

theorem tokenizeGo_clean (cs : List Char) :
    ∀ (rest : List Char) (tokens : List (List Char)) (current : List Char),
      (∀ c ∈ cs, c ≠ '+' ∧ c ≠ '-' ∧ c ≠ ' ') →
      tokenizeGo (cs ++ rest) tokens current =
        tokenizeGo rest tokens (current ++ cs) := by
  induction cs with
  | nil =>
    intro rest tokens current _
    simp
  | cons c cs ih =>
    intro rest tokens current h
    obtain ⟨h1, h2, h3⟩ := h c (by simp)
    rw [List.cons_append, tokenizeGo_step]
    rw [if_neg (by tauto)]
    rw [if_neg h3]
    rw [ih rest tokens (current ++ [c]) (fun x hx => h x (by simp [hx]))]
    simp

theorem clean_tok_not_space (t : List Char) (h : CleanTok t) :
    ∀ c ∈ t, c ≠ '+' ∧ c ≠ '-' ∧ c ≠ ' ' := by
  intro c hc
  obtain ⟨hp, hm, hs⟩ := h.2 c hc
  refine ⟨hp, hm, ?_⟩
  intro hsp
  subst hsp
  simp [isSpaceChar] at hs

theorem flushToken_clean (tokens : List (List Char)) (t : List Char)
    (h : CleanTok t) : flushToken tokens t = tokens ++ [t] := by
  unfold flushToken
  rw [if_neg (by simpa using h.1)]
  rw [trim_clean t (fun c hc => (h.2 c hc).2.2)]

theorem tokenizeGo_op (op : Char) (rest : List Char)
    (tokens : List (List Char)) (current : List Char)
    (hop : op = '+' ∨ op = '-') (hcur : CleanTok current) :
    tokenizeGo (op :: rest) tokens current =
      tokenizeGo rest (tokens ++ [current] ++ [[op]]) [] := by
  rw [tokenizeGo_step, if_pos hop]
  simp only [flushToken_clean tokens current hcur]
  have hlast : (tokens ++ [current]).getLast? = some current :=
    List.getLast?_concat _
  have hcp : current ≠ ['+'] := by
    intro h
    have := (hcur.2 '+' (by simp [h])).1
    exact this rfl
  have hcm : current ≠ ['-'] := by
    intro h
    have := (hcur.2 '-' (by simp [h])).2.1
    exact this rfl
  rw [if_neg ?hneg]
  case hneg =>
    rintro ⟨_, hbad⟩
    rcases hbad with hbad | hbad | hbad
    · exact absurd hbad (by simp)
    · rw [hlast] at hbad
      exact hcp (by simpa using hbad)
    · rw [hlast] at hbad
      exact hcm (by simpa using hbad)

theorem tokenizeGo_nil_flush (tokens : List (List Char))
    (current : List Char) (h : CleanTok current) :
    tokenizeGo [] tokens current = tokens ++ [current] := by
  show flushToken tokens current = _
  exact flushToken_clean tokens current h

theorem glueOps_chars (t0 : List Char)
    (ops : List (Char × Int × List Char)) :
    ∀ c ∈ glueOps t0 ops, c ∈ t0 ∨ ∃ p ∈ ops, c = p.1 ∨ c ∈ p.2.2 := by
  induction ops generalizing t0 with
  | nil =>
    intro c hc
    exact Or.inl hc
  | cons p ops ih =>
    obtain ⟨op, v, t⟩ := p
    intro c hc
    have hc' : c ∈ t0 ++ op :: glueOps t ops := hc
    rw [List.mem_append, List.mem_cons] at hc'
    rcases hc' with h | h | h
    · exact Or.inl h
    · exact Or.inr ⟨(op, v, t), by simp, Or.inl h⟩
    · rcases ih t c h with h' | ⟨q, hq, hq'⟩
      · exact Or.inr ⟨(op, v, t), by simp, Or.inr h'⟩
      · exact Or.inr ⟨q, by simp [hq], hq'⟩

theorem tokenize_glue (ops : List (Char × Int × List Char)) :
    ∀ (t0 : List Char) (tokens : List (List Char)),
      CleanTok t0 →
      (∀ p ∈ ops, (p.1 = '+' ∨ p.1 = '-') ∧ CleanTok p.2.2) →
      tokenizeGo (glueOps t0 ops) tokens [] =
        tokens ++ [t0] ++ flatOps ops := by
  induction ops with
  | nil =>
    intro t0 tokens h0 _
    show tokenizeGo (glueOps t0 []) tokens [] = _
    have hg : glueOps t0 [] = t0 ++ [] := by simp [glueOps]
    rw [hg, tokenizeGo_clean t0 [] tokens [] (clean_tok_not_space t0 h0)]
    rw [List.nil_append, tokenizeGo_nil_flush tokens t0 h0]
    simp [flatOps]
  | cons p ops ih =>
    intro t0 tokens h0 hops
    obtain ⟨op, v, t⟩ := p
    obtain ⟨hopv, hcl⟩ := hops (op, v, t) (by simp)
    have hg : glueOps t0 ((op, v, t) :: ops) =
        t0 ++ op :: glueOps t ops := rfl
    rw [hg, tokenizeGo_clean t0 _ tokens [] (clean_tok_not_space t0 h0)]
    rw [List.nil_append, tokenizeGo_op op _ tokens t0 hopv h0]
    rw [ih t (tokens ++ [t0] ++ [[op]]) hcl
      (fun q hq => hops q (by simp [hq]))]
    simp [flatOps]

theorem evalOps_flat (cfg : Config) (date : GoDate) :
    ∀ (ops : List (Char × Int × List Char)) (acc : Int),
      (∀ p ∈ ops, (p.1 = '+' ∨ p.1 = '-') ∧
        resolveValueTop cfg date p.2.2 = .ok p.2.1) →
      evalOps cfg date acc (flatOps ops) = .ok (foldOps acc ops) := by
  intro ops
  induction ops with
  | nil => intro acc _; rfl
  | cons p ops ih =>
    intro acc h
    obtain ⟨op, v, t⟩ := p
    obtain ⟨hopv, hres⟩ := h (op, v, t) (by simp)
    have hstep : evalOps cfg date acc ([op] :: t :: flatOps ops) =
        match resolveValueTop cfg date t with
        | .error e => .error e
        | .ok v =>
          if [op] = ['+'] then evalOps cfg date (acc + v) (flatOps ops)
          else if [op] = ['-'] then evalOps cfg date (acc - v) (flatOps ops)
          else .error "unsupported operator" := rfl
    show evalOps cfg date acc ([op] :: t :: flatOps ops) = _
    rw [hstep, hres]
    rcases hopv with hop | hop <;> subst hop
    · show evalOps cfg date (acc + v) (flatOps ops) = _
      rw [ih (acc + v) (fun q hq => h q (by simp [hq]))]
      simp [foldOps]
    · show evalOps cfg date (acc - v) (flatOps ops) = _
      rw [ih (acc - v) (fun q hq => h q (by simp [hq]))]
      simp [foldOps]

theorem evaluateArithmetic_notrim (cfg : Config) (date : GoDate)
    (c : Char) (cs : List Char)
    (h : trimSpace (c :: cs) = c :: cs) :
    evaluateArithmetic cfg date (c :: cs) =
      match tokenizeExpression (c :: cs) with
      | [] => .error "no tokens in expression"
      | t0 :: rest =>
        match resolveValueTop cfg date t0 with
        | .error e => .error e
        | .ok v0 => evalOps cfg date v0 rest := by
  unfold evaluateArithmetic
  rw [h]

/-- The arithmetic lemma: a left-to-right sequence of resolvable
operand tokens joined by `+`/`-` evaluates to the left-to-right
fold of the operand values. -/
theorem evaluateArithmetic_glue (cfg : Config) (date : GoDate)
    (t0 : List Char) (v0 : Int) (ops : List (Char × Int × List Char))
    (h0 : CleanTok t0) (hres0 : resolveValueTop cfg date t0 = .ok v0)
    (hops : ∀ p ∈ ops, (p.1 = '+' ∨ p.1 = '-') ∧ CleanTok p.2.2 ∧
      resolveValueTop cfg date p.2.2 = .ok p.2.1) :
    evaluateArithmetic cfg date (glueOps t0 ops) = .ok (foldOps v0 ops) := by
  have hchars : ∀ c ∈ glueOps t0 ops, isSpaceChar c = false := by
    intro c hc
    rcases glueOps_chars t0 ops c hc with h | ⟨p, hp, hcp⟩
    · exact (h0.2 c h).2.2
    · rcases hcp with hcp | hcp
      · subst hcp
        rcases (hops p hp).1 with h' | h' <;> rw [h'] <;> rfl
      · exact ((hops p hp).2.1.2 c hcp).2.2
  have htrim : trimSpace (glueOps t0 ops) = glueOps t0 ops :=
    trim_clean _ hchars
  obtain ⟨c, t0', ht0⟩ : ∃ c t0', t0 = c :: t0' := by
    cases t0 with
    | nil => exact absurd rfl h0.1
    | cons c t0' => exact ⟨c, t0', rfl⟩
  have hgc : glueOps t0 ops = c :: glueOps t0' ops := by
    subst ht0
    cases ops <;> rfl
  rw [hgc] at htrim ⊢
  rw [evaluateArithmetic_notrim cfg date c _ htrim]
  have htok : tokenizeExpression (c :: glueOps t0' ops) =
      t0 :: flatOps ops := by
    unfold tokenizeExpression
    rw [htrim, ← hgc,
      tokenize_glue ops t0 [] h0
        (fun q hq => ⟨(hops q hq).1, (hops q hq).2.1⟩)]
    simp
  rw [htok]
  show (match resolveValueTop cfg date t0 with
    | Except.error e => Except.error e
    | Except.ok v0 => evalOps cfg date v0 (flatOps ops)) =
    Except.ok (foldOps v0 ops)
  rw [hres0]
  exact evalOps_flat cfg date ops v0
    (fun q hq => ⟨(hops q hq).1, (hops q hq).2.2⟩)

/-! ## C4: marker substitution and left-to-right arithmetic -/

/-- **C4.** Successful evaluation returns the input with each
`((...))` marker replaced by the decimal string of the value of its
sub-expression, everything outside markers unchanged; each
sub-expression is a left-to-right `+`/`-` fold over its operand
tokens (integer literals or the identifiers, resolved by
`resolveValue`); and the spec's example substitutes to
"Year 2024 has 24 years since 2000". -/
theorem expression_substitution (cfg : Config) (date : GoDate) :
    (∀ (seg : List Char) (ps : List (List Char × Int × List Char)),
      (∀ c ∈ seg, c ≠ '(') →
      (∀ p ∈ ps, p.1 ≠ [] ∧ (∀ c ∈ p.1, c ≠ ')') ∧
        (∀ c ∈ p.2.2, c ≠ '(') ∧
        evaluateArithmetic cfg date p.1 = .ok p.2.1) →
      evaluateExpressionsWithSkip cfg date (glueMarkers seg ps) =
        .ok (substMarkers seg ps,
          ps.any (fun p => decide (p.2.1 ≤ 0)))) ∧
    (∀ (t0 : List Char) (v0 : Int) (ops : List (Char × Int × List Char)),
      CleanTok t0 → resolveValueTop cfg date t0 = .ok v0 →
      (∀ p ∈ ops, (p.1 = '+' ∨ p.1 = '-') ∧ CleanTok p.2.2 ∧
        resolveValueTop cfg date p.2.2 = .ok p.2.1) →
      evaluateArithmetic cfg date (glueOps t0 ops) =
        .ok (foldOps v0 ops)) ∧
    evaluateExpressionsWithSkip ⟨2024, 3⟩ ⟨2024, 3, 18⟩
      ("Year ((year)) has ((year - 2000)) years since 2000".toList) =
      .ok ("Year 2024 has 24 years since 2000".toList, false) :=
  ⟨fun seg ps hseg hps =>
    evaluateExpressionsWithSkip_glue cfg date seg ps hseg hps,
   fun t0 v0 ops h0 hres0 hops =>
    evaluateArithmetic_glue cfg date t0 v0 ops h0 hres0 hops,
   by decide⟩

/-- Witness for C4 on the spec's example written as a decomposition:
two markers with values 2024 and 24 between three plain segments. -/
theorem expression_substitution_witness :
    evaluateExpressionsWithSkip ⟨2024, 3⟩ ⟨2024, 3, 18⟩
      (glueMarkers ("Year ".toList)
        [("year".toList, 2024, " has ".toList),
         ("year - 2000".toList, 24, " years since 2000".toList)]) =
      .ok (substMarkers ("Year ".toList)
        [("year".toList, 2024, " has ".toList),
         ("year - 2000".toList, 24, " years since 2000".toList)],
        ([("year".toList, (2024 : Int), " has ".toList),
          ("year - 2000".toList, (24 : Int),
            " years since 2000".toList)].any
          (fun p => decide (p.2.1 ≤ 0)))) :=
  (expression_substitution ⟨2024, 3⟩ ⟨2024, 3, 18⟩).1
    ("Year ".toList)
    [("year".toList, 2024, " has ".toList),
     ("year - 2000".toList, 24, " years since 2000".toList)]
    (by decide) (by decide)

/-! ## C5: the skip flag and record omission -/

/-- **C5.** The skip flag of a field is set exactly when at least one
of its sub-expressions evaluates to a value ≤ 0; a record whose text
field signals skip is omitted while the rest of the load proceeds
normally; `((year - 2011))` stores text "13" for configured year 2024
and omits the record entirely for 2010(value -1), the load
succeeding in both cases. -/
theorem skip_flag_semantics (cfg : Config) (date : GoDate) :
    (∀ (seg : List Char) (ps : List (List Char × Int × List Char)),
      (∀ c ∈ seg, c ≠ '(') →
      (∀ p ∈ ps, p.1 ≠ [] ∧ (∀ c ∈ p.1, c ≠ ')') ∧
        (∀ c ∈ p.2.2, c ≠ '(') ∧
        evaluateArithmetic cfg date p.1 = .ok p.2.1) →
      evaluateExpressionsWithSkip cfg date (glueMarkers seg ps) =
        .ok (substMarkers seg ps,
          ps.any (fun p => decide (p.2.1 ≤ 0))) ∧
      (ps.any (fun p => decide (p.2.1 ≤ 0)) = true ↔
        ∃ p ∈ ps, p.2.1 ≤ 0)) ∧
    (∀ (fmt : List Char) (r : DayRecord) (key : SpecialDaysKey)
      (rest : List DayRecord) (acc : SpecialDays) (t : List Char),
      specialDaysKeyFromString fmt r.when cfg = .ok key →
      evaluateExpressionsWithSkip cfg
        (goTimeDate cfg.year key.month key.day) r.text = .ok (t, true) →
      loadDays fmt cfg (r :: rest) acc = loadDays fmt cfg rest acc) ∧
    loadDays ['2', '/', '1'] (⟨2024, 3⟩ : Config)
      [⟨['1', '8', '/', '3'], false, [],
        ("((year - 2011)) anniversary".toList), [], 0⟩] [] =
      .ok [((⟨3, 18⟩ : SpecialDaysKey),
        (⟨⟨2024, 3, 18⟩, false, [],
          ⟨("13 anniversary".toList), [], 0⟩⟩ : SpecialDay))] ∧
    loadDays ['2', '/', '1'] (⟨2010, 3⟩ : Config)
      [⟨['1', '8', '/', '3'], false, [],
        ("((year - 2011)) anniversary".toList), [], 0⟩] [] = .ok [] := by
  refine ⟨?_, ?_, by decide, by decide⟩
  · intro seg ps hseg hps
    refine ⟨evaluateExpressionsWithSkip_glue cfg date seg ps hseg hps, ?_⟩
    simp [List.any_eq_true]
  · intro fmt r key rest acc t hk ht
    simp [loadDays, resolveRecord, hk, ht]

/-- Witness for C5 at the 2010 instance of the decomposition lemma:
the single marker `((year - 2011))` evaluates to -1 and the skip flag
is on. -/
theorem skip_flag_semantics_witness :
    evaluateExpressionsWithSkip ⟨2010, 3⟩ ⟨2010, 3, 18⟩
      (glueMarkers [] [("year - 2011".toList, -1, " anniversary".toList)]) =
      .ok (substMarkers []
          [("year - 2011".toList, -1, " anniversary".toList)],
        ([("year - 2011".toList, (-1 : Int), " anniversary".toList)].any
          (fun p => decide (p.2.1 ≤ 0)))) ∧
    (([("year - 2011".toList, (-1 : Int), " anniversary".toList)].any
        (fun p => decide (p.2.1 ≤ 0))) = true ↔
      ∃ p ∈ [("year - 2011".toList, (-1 : Int), " anniversary".toList)],
        p.2.1 ≤ 0) :=
  (skip_flag_semantics ⟨2010, 3⟩ ⟨2010, 3, 18⟩).1 []
    [("year - 2011".toList, -1, " anniversary".toList)]
    (by decide) (by decide)

/-! ## C8: relative pattern first, fixed date as fallback -/

/-- **C8.** `specialDaysKeyFromString` tries the relative pattern
first; when the "when" string does not match it, the string is parsed
as a fixed date against the declared layout, and only the parsed
month and day are kept (the parsed year is discarded); `when="18/3"`
under layout `"2/1"` resolves to key (month 3, day 18) for every
configuration. -/
theorem key_resolution_fallback :
    (∀ (layout s : List Char) (cfg : Config) (k : SpecialDaysKey),
      parseRelativeDate s cfg = .ok k →
      specialDaysKeyFromString layout s cfg = .ok k) ∧
    (∀ (layout s : List Char) (cfg : Config) (e : String)
      (t : GoParsedDate),
      parseRelativeDate s cfg = .error e →
      goTimeParse layout s = .ok t →
      specialDaysKeyFromString layout s cfg = .ok ⟨t.month, t.day⟩) ∧
    (∀ cfg : Config,
      specialDaysKeyFromString ("2/1".toList) ("18/3".toList) cfg =
        .ok ⟨3, 18⟩) := by
  refine ⟨?_, ?_, ?_⟩
  · intro layout s cfg k h
    simp [specialDaysKeyFromString, h]
  · intro layout s cfg e t h1 h2
    simp [specialDaysKeyFromString, h1, h2]
  · intro cfg
    rfl

/-- Witness for C8: the fallback conjunct applied at layout "2/1" and
input "18/3" with an arbitrary configured year (2024). -/
theorem key_resolution_fallback_witness :
    specialDaysKeyFromString ("2/1".toList) ("18/3".toList) ⟨2024, 7⟩ =
      .ok ⟨3, 18⟩ :=
  key_resolution_fallback.2.1 ("2/1".toList) ("18/3".toList) ⟨2024, 7⟩
    "not a relative date pattern" ⟨0, 3, 18⟩ (by decide) (by decide)

end Galendar
